import Mathlib

/-! Work-stealing thread pool (`src/work_stealing_pool.hpp`)

A shallow embedding of `work_stealing_pool::notification_queue` and
`work_stealing_pool::thread_pool`.

* A queue is its deque `q_` (front of the deque = head of the list) and its
  flag `done_`.  The mutex guarantees that every member function runs
  atomically on this state, so each member function is a function on states.
* `lock.try_lock()` may fail when another thread holds the mutex.  Its outcome
  is an explicit argument `acquired : Bool` of `try_pop` and `try_push`.
* `ready_.wait(lock, pred)` returns only when `pred` holds.  A blocking `pop`
  on a state where the predicate is false has not returned: `pop` gives `none`.
* `size_t` is 64 bits wide; `+`, `*` and `++` on it wrap modulo `2 ^ 64`.
  `a % 0` and `v[k]` with `k` out of range are undefined: the embedding
  returns `none` there.
-/

namespace work_stealing_pool

/-! ## Definitions -/

/-- Number of values of `size_t` (LP64: 64 bits). -/
def SIZE_MOD : Nat := 2 ^ 64

/-- Number of values of `unsigned int`, the type of
`std::thread::hardware_concurrency()`. -/
def UINT_MOD : Nat := 2 ^ 32

/-- A valid `std::packaged_task`: `handle` names the shared state (the future
handed to the submitter), `value` is what the wrapped callable returns. -/
structure task where
  handle : Nat
  value : Nat
deriving DecidableEq

/-- The state of a `notification_queue` that its mutex protects. -/
structure notification_queue where
  q_ : List task
  done_ : Bool
deriving DecidableEq

namespace notification_queue

/-- `void done()`: sets `done_` under the lock. -/
def done (self : notification_queue) : notification_queue :=
  { self with done_ := true }

/-- The predicate `!q_.empty() || done_` that `pop` waits for. -/
def ready (self : notification_queue) : Bool :=
  !self.q_.isEmpty || self.done_

/-- `bool pop( task& x )`.  `x` is the caller's task object (`none` = not
valid).  `none` = the call is still waiting in `ready_.wait`; otherwise the
returned flag, the caller's object and the queue afterwards. -/
def pop (self : notification_queue) (x : Option task) :
    Option (Bool × Option task × notification_queue) :=
  if !self.ready then none
  else if self.done_ then some (false, x, self)
  else
    match self.q_ with
    | [] => none
    | t :: rest => some (true, some t, { self with q_ := rest })

/-- `void push( Func&& f )`: appends at the back under the lock. -/
def push (self : notification_queue) (f : task) : notification_queue :=
  { self with q_ := self.q_ ++ [f] }

/-- `bool try_pop( task& x )`; `acquired` is the result of `lock.try_lock()`. -/
def try_pop (self : notification_queue) (acquired : Bool) (x : Option task) :
    Bool × Option task × notification_queue :=
  if !acquired || self.q_.isEmpty || self.done_ then (false, x, self)
  else
    match self.q_ with
    | [] => (false, x, self)
    | t :: rest => (true, some t, { self with q_ := rest })

/-- `bool try_push( Func&& f )`; `acquired` is the result of
`lock.try_lock()`.  The middle component is the caller's task object after the
call: `some f` when it was not moved from, `none` once it was moved into the
deque. -/
def try_push (self : notification_queue) (acquired : Bool) (f : task) :
    Bool × Option task × notification_queue :=
  if !acquired then (false, some f, self)
  else (true, none, { self with q_ := self.q_ ++ [f] })

/-- Successive blocking pushes of `fs`, in order. -/
def push_all (self : notification_queue) : List task → notification_queue
  | [] => self
  | f :: fs => push_all (self.push f) fs

/-- Up to `n` successive blocking pops (each with a fresh `task x`): the tasks
returned by the pops that returned `true`, in order, and the queue at the
first pop that did not (or after the `n`-th). -/
def pop_n (self : notification_queue) : Nat → List task × notification_queue
  | 0 => ([], self)
  | n + 1 =>
    match self.pop none with
    | some (true, some t, q) => (t :: (pop_n q n).1, (pop_n q n).2)
    | _ => ([], self)

/-- One later operation on a queue, with its arguments. -/
inductive op where
  | push (f : task)
  | try_push (acquired : Bool) (f : task)
  | pop (x : Option task)
  | try_pop (acquired : Bool) (x : Option task)
  | done

/-- The queue after one operation; a `pop` that is still waiting has not
changed it. -/
def apply (self : notification_queue) : op → notification_queue
  | .push f => self.push f
  | .try_push a f => (self.try_push a f).2.2
  | .pop x =>
    match self.pop x with
    | some r => r.2.2
    | none => self
  | .try_pop a x => (self.try_pop a x).2.2
  | .done => self.done

end notification_queue

/-! ### `size_t` arithmetic -/

/-- `a + b` on `size_t`. -/
def size_add (a b : Nat) : Nat := (a + b) % SIZE_MOD

/-- `a * b` on `size_t`. -/
def size_mul (a b : Nat) : Nat := (a * b) % SIZE_MOD

/-- `a % b` on `size_t`; undefined for `b = 0`. -/
def size_rem (a b : Nat) : Option Nat :=
  if b = 0 then none else some (a % b)

/-! ### The pool -/

/-- The data members of `thread_pool` other than the threads. -/
structure thread_pool where
  count_ : Nat
  queues_ : List notification_queue
  index_ : Nat
deriving DecidableEq

namespace thread_pool

/-- `thread_pool()`: `h` is the value of
`std::thread::hardware_concurrency()`.  `count_{ h }`, `queues_{ count_ }`
(that many fresh queues), `index_{ 0 }`. -/
def ctor (h : Nat) : thread_pool :=
  { count_ := h
    queues_ := List.replicate h { q_ := [], done_ := false }
    index_ := 0 }

/-- The first loop of `~thread_pool()`: `q.done()` for every queue. -/
def dtor_done (self : thread_pool) : thread_pool :=
  { self with queues_ := self.queues_.map notification_queue.done }

/-- The `for` loop of `add_task` from `shift` on, with `n` iterations left.
`locks shift` is the outcome of `try_lock` in the attempt number `shift`,
`task_added` the local task object.  Result: whether the loop left through
`return result`, the task object and the queues afterwards. -/
def add_task_loop (count_ thread_idx : Nat) (locks : Nat → Bool) :
    Nat → Nat → Option task → List notification_queue →
      Option (Bool × Option task × List notification_queue)
  | 0, _, task_added, qs => some (false, task_added, qs)
  | n + 1, shift, task_added, qs =>
    match task_added, size_rem (size_add thread_idx shift) count_ with
    | some f, some k =>
      match qs[k]? with
      | none => none
      | some q =>
        match q.try_push (locks shift) f with
        | (true, f1, q1) => some (true, f1, qs.set k q1)
        | (false, f1, q1) =>
          add_task_loop count_ thread_idx locks n (shift + 1) f1 (qs.set k q1)
    | _, _ => none

/-- `std::future< Ret > add_task( Func&& f )`.  `f` is the packaged task built
from the callable, `locks` the outcomes of the `try_lock` attempts.  Result:
the handle of the returned future and the pool afterwards. -/
def add_task (self : thread_pool) (locks : Nat → Bool) (f : task) :
    Option (Nat × thread_pool) :=
  let result := f.handle
  let thread_idx := self.index_
  let index1 := size_add self.index_ 1
  match add_task_loop self.count_ thread_idx locks
      (size_mul self.count_ 2) 0 (some f) self.queues_ with
  | none => none
  | some (true, _, qs) => some (result, { self with index_ := index1, queues_ := qs })
  | some (false, task_added, qs) =>
    match task_added, size_rem thread_idx self.count_ with
    | some g, some k =>
      match qs[k]? with
      | none => none
      | some q =>
        some (result, { self with index_ := index1, queues_ := qs.set k (q.push g) })
    | _, _ => none

/-- The `for` loop of `run` from `shift` on, with `n` iterations left; `f` is
the local `task f` (`none` = not valid), `locks shift` the outcome of
`try_lock` in the attempt number `shift`. -/
def run_scan (count_ thread_idx : Nat) (locks : Nat → Bool) :
    Nat → Nat → Option task → List notification_queue →
      Option (Option task × List notification_queue)
  | 0, _, f, qs => some (f, qs)
  | n + 1, shift, f, qs =>
    match size_rem (size_add thread_idx shift) count_ with
    | none => none
    | some k =>
      match qs[k]? with
      | none => none
      | some q =>
        match q.try_pop (locks shift) f with
        | (true, f1, q1) => some (f1, qs.set k q1)
        | (false, f1, q1) =>
          run_scan count_ thread_idx locks n (shift + 1) f1 (qs.set k q1)

/-- What one pass through the body of `while ( true )` in `run` does. -/
inductive iteration where
  /-- Undefined behaviour (index out of range, `% 0`). -/
  | undefined
  /-- The scan found nothing and the thread waits in `pop` on its own queue. -/
  | waiting (qs : List notification_queue)
  /-- The body executed `return`. -/
  | returned (qs : List notification_queue)
  /-- The body executed `f()`; the loop goes on. -/
  | executed (f : task) (qs : List notification_queue)
deriving DecidableEq

/-- One pass through the body of `while ( true )` in `run( thread_idx )`, the
other threads standing still. -/
def run_iteration (self : thread_pool) (thread_idx : Nat) (locks : Nat → Bool) :
    iteration :=
  match run_scan self.count_ thread_idx locks self.count_ 0 none self.queues_ with
  | none => .undefined
  | some (some f, qs) => .executed f qs
  | some (none, qs) =>
    match qs[thread_idx]? with
    | none => .undefined
    | some q =>
      match q.pop none with
      | none => .waiting qs
      | some (false, _, q1) => .returned (qs.set thread_idx q1)
      | some (true, some f, q1) => .executed f (qs.set thread_idx q1)
      | some (true, none, _) => .undefined

/-- How a call of `run` ended. -/
inductive run_result where
  | undefined
  /-- The loop is still running after the given number of passes. -/
  | running
  /-- The thread waits in `pop`; so far it executed `ran`. -/
  | waiting (ran : List task) (qs : List notification_queue)
  /-- The call returned, having executed `ran` in this order. -/
  | returned (ran : List task) (qs : List notification_queue)
deriving DecidableEq

/-- `void run( const size_t thread_idx )`, the other threads standing still:
at most `fuel` passes through the loop; `locks j` are the lock outcomes of
pass `j`, `acc` the tasks executed so far. -/
def run (self : thread_pool) (thread_idx : Nat) (locks : Nat → Nat → Bool) :
    Nat → List task → run_result
  | 0, _ => .running
  | fuel + 1, acc =>
    match self.run_iteration thread_idx (locks 0) with
    | .undefined => .undefined
    | .waiting qs => .waiting acc qs
    | .returned qs => .returned acc qs
    | .executed f qs =>
      run { self with queues_ := qs } thread_idx (fun j => locks (j + 1)) fuel
        (acc ++ [f])

/-- The pool is as the constructor builds it: `count_` queues, and `count_`
is a value of `unsigned int`, `index_` a value of `size_t`. -/
def wf (self : thread_pool) : Prop :=
  self.queues_.length = self.count_ ∧ self.count_ < UINT_MOD ∧
    self.index_ < SIZE_MOD

/-- All tasks pending in the queues, queue by queue. -/
def pending (qs : List notification_queue) : List task :=
  (qs.map notification_queue.q_).flatten

end thread_pool

/-- Attempt number `shift` of the scan in `run( thread_idx )` succeeds on the
queues `qs`: its `try_pop`, on queue `(thread_idx + shift) mod count_`,
returns `true`. -/
def scan_hit (count_ thread_idx : Nat) (locks : Nat → Bool)
    (qs : List notification_queue) (shift : Nat) : Prop :=
  ∃ q, qs[(thread_idx + shift) % count_]? = some q ∧
    (q.try_pop (locks shift) none).1 = true

/-! ### The pool with its threads: interleavings

Every queue operation runs under the queue's mutex, so an execution of the
pool is a sequence of atomic steps.  A worker thread takes one step per queue
operation (`try_pop`, `pop`) and one for `f()`.  A call of `add_task` changes
the queues in one place only, the `try_push` or `push` that succeeds (a failed
`try_push` changes nothing), and is one step, taken at that moment; the
`try_lock` outcomes it meets on the way are arbitrary, which covers every
contention that other threads can cause. -/

/-- Where a thread running `run` stands. -/
inductive worker where
  /-- In the `for` loop before the test `shift < count_`, `f` not valid; with
  `shift = count_` the loop is over and `pop` on the own queue comes next. -/
  | scan (shift : Nat)
  /-- Holding the valid task `f`, about to call `f()`. -/
  | holding (f : task)
  /-- Function `run` has returned. -/
  | exited
deriving DecidableEq

/-- The task a worker holds, if any. -/
def worker.held : worker → List task
  | .holding f => [f]
  | _ => []

/-- One atomic step of the thread running `run( thread_idx )`: the worker
afterwards, the pool afterwards and the task whose `f()` ran in this step.
`none`: no step (the thread waits in `pop`, or has returned). -/
def worker_step (p : thread_pool) (thread_idx : Nat) (acquired : Bool) :
    worker → Option (worker × thread_pool × List task)
  | .scan shift =>
    if shift < p.count_ then
      match size_rem (size_add thread_idx shift) p.count_ with
      | none => none
      | some k =>
        match p.queues_[k]? with
        | none => none
        | some q =>
          match q.try_pop acquired none with
          | (true, some f, q1) =>
            some (.holding f, { p with queues_ := p.queues_.set k q1 }, [])
          | (true, none, _) => none
          | (false, _, q1) =>
            some (.scan (shift + 1), { p with queues_ := p.queues_.set k q1 }, [])
    else
      match p.queues_[thread_idx]? with
      | none => none
      | some q =>
        match q.pop none with
        | none => none
        | some (true, some f, q1) =>
          some (.holding f, { p with queues_ := p.queues_.set thread_idx q1 }, [])
        | some (true, none, _) => none
        | some (false, _, q1) =>
          some (.exited, { p with queues_ := p.queues_.set thread_idx q1 }, [])
  | .holding f => some (.scan 0, p, [f])
  | .exited => none

/-- The pool, its threads, and two logs: the tasks handed to `add_task`, in
call order, and the tasks whose `f()` has run, in that order. -/
structure system where
  pool : thread_pool
  threads_ : List worker
  submitted : List task
  executed : List task
deriving DecidableEq

/-- An atomic step of the system. -/
inductive event where
  /-- A call `add_task` for the task `f`, meeting the lock outcomes `locks`. -/
  | add_task (f : task) (locks : Nat → Bool)
  /-- The next step of worker `thread_idx`; `acquired` is the outcome of
  `try_lock` if that step is a `try_pop`. -/
  | worker (thread_idx : Nat) (acquired : Bool)

namespace system

/-- The system right after `thread_pool()` with hint `h`: every thread at the
start of `run`. -/
def init (h : Nat) : system :=
  { pool := thread_pool.ctor h
    threads_ := List.replicate h (.scan 0)
    submitted := []
    executed := [] }

/-- One step; `none` when the event cannot happen in this state. -/
def step (s : system) : event → Option system
  | .add_task f locks =>
    match s.pool.add_task locks f with
    | none => none
    | some (_, p) => some { s with pool := p, submitted := s.submitted ++ [f] }
  | .worker thread_idx acquired =>
    match s.threads_[thread_idx]? with
    | none => none
    | some w =>
      match worker_step s.pool thread_idx acquired w with
      | none => none
      | some (w1, p, ran) =>
        some { s with
          pool := p
          threads_ := s.threads_.set thread_idx w1
          executed := s.executed ++ ran }

/-- A sequence of steps. -/
def steps (s : system) : List event → Option system
  | [] => some s
  | e :: es =>
    match s.step e with
    | none => none
    | some s1 => steps s1 es

/-- States that some interleaving reaches from `s0`. -/
def reachable (s0 s : system) : Prop :=
  ∃ es, s0.steps es = some s

/-- Every place a task can be: pending in a queue, held by a worker, or
executed. -/
def places (s : system) : List task :=
  thread_pool.pending s.pool.queues_ ++ (s.threads_.map worker.held).flatten ++
    s.executed

/-- What `get()` on the future with the given handle yields once the task has
run: the value the first executed task with that handle returned. -/
def result (s : system) (handle : Nat) : Option Nat :=
  (s.executed.find? (fun t => t.handle == handle)).map task.value

end system

/-- Pool of size one: executed tasks, then the task the worker holds, then the
queue from front to back, read together, are the submitted tasks in
submission order. -/
def fifo_order (s : system) : Prop :=
  s.pool.count_ = 1 ∧ ∃ q w, s.pool.queues_ = [q] ∧ s.threads_ = [w] ∧
    s.executed ++ w.held ++ q.q_ = s.submitted

/-- The pool built with hint `h` is running: `h` queues and `h` workers, no
queue is done and no worker has left `run`. -/
def system.running (h : Nat) (s : system) : Prop :=
  s.pool.count_ = h ∧ s.pool.queues_.length = h ∧ s.threads_.length = h ∧
    (∀ q, q ∈ s.pool.queues_ → q.done_ = false) ∧
    (∀ w, w ∈ s.threads_ → w ≠ worker.exited)

/-- A bound on the steps a worker needs to get rid of what it is doing. -/
def worker.weight (h : Nat) : worker → Nat
  | .scan shift => h - shift
  | .holding _ => h + 1
  | .exited => 0

/-- A measure of the work left: it goes down with every step of a worker that
runs a task, takes a task, or moves on in its scan. -/
def system.work_left (s : system) : Nat :=
  (s.pool.count_ + 2) * (thread_pool.pending s.pool.queues_).length +
    (s.threads_.map (worker.weight s.pool.count_)).sum

/-- The events of the listed worker steps. -/
def worker_events (ws : List (Nat × Bool)) : List event :=
  ws.map fun e => event.worker e.1 e.2

/-- The tasks that `main` submits when its loop runs to `n`: task `i` returns
`i` through the future `f[ i ]`. -/
def main_tasks (n : Nat) : List task :=
  (List.range n).map (fun i => (⟨i, i⟩ : task))

/-- One interleaving of `main` on a pool with `h` workers: for each `i` in
turn, `add_task` finds the lock of its target queue free, then worker
`i mod h` takes the task from its own queue with `try_pop` and runs it. -/
def main_interleaving (h n : Nat) : List event :=
  ((List.range n).map (fun i =>
    [event.add_task ⟨i, i⟩ (fun _ => true), event.worker (i % h) true,
      event.worker (i % h) true])).flatten

/-! ## Theorems: the queue -/

/-- C1, as stated, fails: on a queue that is done and still holds two tasks,
the wait of `pop` has ended, yet `pop` returns `false`, leaves the caller's
object untouched and removes nothing. -/
theorem C1_pop_done_nonempty_returns_false :
    (notification_queue.mk [⟨0, 0⟩, ⟨1, 1⟩] true).ready = true ∧
    (notification_queue.mk [⟨0, 0⟩, ⟨1, 1⟩] true).q_ ≠ [] ∧
    (notification_queue.mk [⟨0, 0⟩, ⟨1, 1⟩] true).pop none
      = some (false, none, notification_queue.mk [⟨0, 0⟩, ⟨1, 1⟩] true) ∧
    (notification_queue.mk [⟨0, 0⟩, ⟨1, 1⟩] true).pop none
      ≠ some (true, some ⟨0, 0⟩, notification_queue.mk [⟨1, 1⟩] true) := by
  decide

/-- C1, amended: whenever the wait of `pop` has ended, `pop` returns.  If the
queue is not done it is non-empty, and `pop` returns `true` with the front
task, leaving the remaining tasks in order and the flag unchanged.  If the
queue is done, `pop` returns `false` and changes neither the caller's object
nor the queue, whether or not tasks are pending.  So `pop` returns `false`
exactly when the queue is done. -/
theorem C1_pop_after_wait (q : notification_queue) (x : Option task)
    (hready : q.ready = true) :
    (q.done_ = false →
      ∃ t rest, q.q_ = t :: rest ∧
        q.pop x = some (true, some t, { q_ := rest, done_ := false })) ∧
    (q.done_ = true → q.pop x = some (false, x, q)) ∧
    (∃ r, q.pop x = some r ∧ (r.1 = false ↔ q.done_ = true)) := by
  obtain ⟨l, d⟩ := q
  cases d <;> cases l <;>
    simp_all [notification_queue.pop, notification_queue.ready]

/-- Witness for C1: a queue holding two tasks that is not done. -/
theorem C1_pop_after_wait_witness :
    (notification_queue.mk [⟨0, 0⟩, ⟨1, 1⟩] false).ready = true ∧
    (notification_queue.mk [⟨0, 0⟩, ⟨1, 1⟩] false).pop none
      = some (true, some ⟨0, 0⟩, notification_queue.mk [⟨1, 1⟩] false) := by
  refine ⟨by decide, ?_⟩
  obtain ⟨t, rest, hq, hpop⟩ :=
    (C1_pop_after_wait (notification_queue.mk [⟨0, 0⟩, ⟨1, 1⟩] false) none
      (by decide)).1 rfl
  simp only [List.cons.injEq] at hq
  obtain ⟨rfl, rfl⟩ := hq
  exact hpop

/-- C6: when the lock is held by another thread (`try_lock` fails),
`try_push` returns `false`, `try_pop` returns `false`, both at once (they have
no waiting state) and with the queue, task sequence and flag, unchanged; the
task offered to `try_push` is still the caller's valid task, and the object
handed to `try_pop` is untouched. -/
theorem C6_try_lock_fails (q : notification_queue) (f : task) (x : Option task) :
    q.try_push false f = (false, some f, q) ∧ q.try_pop false x = (false, x, q) := by
  simp [notification_queue.try_push, notification_queue.try_pop]

/-- C7: `try_pop` returns `true` if and only if the lock was acquired, the
queue is non-empty and the queue is not done.  Then the task handed out is the
front task and the queue keeps the rest of the sequence (flag unchanged).  In
every other case it returns `false` and neither the caller's object nor the
queue changes. -/
theorem C7_try_pop (q : notification_queue) (acquired : Bool) (x : Option task) :
    ((q.try_pop acquired x).1 = true ↔
      (acquired = true ∧ q.q_ ≠ [] ∧ q.done_ = false)) ∧
    ((q.try_pop acquired x).1 = true →
      ∃ t rest, q.q_ = t :: rest ∧
        q.try_pop acquired x = (true, some t, { q_ := rest, done_ := q.done_ })) ∧
    ((q.try_pop acquired x).1 = false → q.try_pop acquired x = (false, x, q)) := by
  obtain ⟨l, d⟩ := q
  cases acquired <;> cases d <;> cases l <;> simp [notification_queue.try_pop]

/-- The flag `done_` is never reset by an operation. -/
theorem notification_queue.apply_done_ (q : notification_queue)
    (o : notification_queue.op) (h : q.done_ = true) : (q.apply o).done_ = true := by
  obtain ⟨l, d⟩ := q
  subst h
  cases o with
  | push f => rfl
  | try_push a f => cases a <;> rfl
  | pop x => cases l <;> rfl
  | try_pop a x => cases a <;> cases l <;> rfl
  | done => rfl

/-- The flag `done_` stays set along any sequence of operations. -/
theorem notification_queue.foldl_apply_done_ (ops : List notification_queue.op) :
    ∀ q : notification_queue, q.done_ = true →
      (ops.foldl notification_queue.apply q).done_ = true := by
  induction ops with
  | nil => intro q h; exact h
  | cons o os ih => intro q h; exact ih _ (q.apply_done_ o h)

/-- C9, as stated, fails: after `done()` a blocking `push` and a `try_push`
that gets the lock both still add their task to the sequence. -/
theorem C9_push_after_done_adds :
    ((notification_queue.mk [] false).done.push ⟨0, 0⟩).q_ = [⟨0, 0⟩] ∧
    ((notification_queue.mk [] false).done.try_push true ⟨0, 0⟩)
      = (true, none, notification_queue.mk [⟨0, 0⟩] true) := by
  decide

/-- C9, amended: once `done()` has been called, the flag stays set under every
later sequence of operations (`push`, `try_push`, `pop`, `try_pop`, `done`).
`push` and `try_push` do not test the flag: in every such later state a `push`,
and a `try_push` that gets the lock, still append their task at the back of
the sequence.  No later `pop` or `try_pop` removes a task. -/
theorem C9_done_stays_set (q : notification_queue)
    (ops : List notification_queue.op) (f : task) (x : Option task) (a : Bool) :
    (ops.foldl notification_queue.apply q.done).done_ = true ∧
    ((ops.foldl notification_queue.apply q.done).push f).q_
      = (ops.foldl notification_queue.apply q.done).q_ ++ [f] ∧
    ((ops.foldl notification_queue.apply q.done).try_push true f).2.2.q_
      = (ops.foldl notification_queue.apply q.done).q_ ++ [f] ∧
    (ops.foldl notification_queue.apply q.done).pop x
      = some (false, x, ops.foldl notification_queue.apply q.done) ∧
    (ops.foldl notification_queue.apply q.done).try_pop a x
      = (false, x, ops.foldl notification_queue.apply q.done) := by
  have h := notification_queue.foldl_apply_done_ ops q.done rfl
  generalize ops.foldl notification_queue.apply q.done = r at h ⊢
  obtain ⟨l, d⟩ := r
  simp only at h
  subst h
  cases a <;> cases l <;>
    simp [notification_queue.push, notification_queue.try_push,
      notification_queue.pop, notification_queue.try_pop, notification_queue.ready]

/-- Blocking pushes append at the back, in order, and keep the flag. -/
theorem notification_queue.push_all_eq (ts : List task) :
    ∀ q : notification_queue, q.push_all ts = { q_ := q.q_ ++ ts, done_ := q.done_ } := by
  induction ts with
  | nil => intro q; simp [notification_queue.push_all]
  | cons t ts ih =>
    intro q
    simp [notification_queue.push_all, ih, notification_queue.push]

/-- As many pops as a queue that is not done holds tasks return exactly these
tasks in queue order and leave the queue empty. -/
theorem notification_queue.pop_n_length (l : List task) :
    (notification_queue.mk l false).pop_n l.length
      = (l, notification_queue.mk [] false) := by
  induction l with
  | nil => rfl
  | cons t ts ih =>
    simp [notification_queue.pop_n, notification_queue.pop,
      notification_queue.ready, ih]

/-! ## Theorems: the pool -/

/-- Writing back the element that is already there changes nothing. -/
theorem set_getElem?_same {α : Type} (l : List α) (k : Nat) (a : α)
    (h : l[k]? = some a) : l.set k a = l := by
  apply List.ext_getElem?
  intro i
  rw [List.getElem?_set]
  split
  · next hki =>
    subst hki
    obtain ⟨hlt, _⟩ := List.getElem?_eq_some.mp h
    simp [h, hlt]
  · rfl

/-- With at least one queue, a queue index taken modulo the number of queues
names a queue. -/
theorem getElem?_mod (qs : List notification_queue) (N a : Nat) (hN : 0 < N)
    (hlen : qs.length = N) : ∃ q, qs[a % N]? = some q := by
  have hlt : a % N < qs.length := by
    rw [hlen]
    exact Nat.mod_lt a hN
  exact ⟨qs[a % N], List.getElem?_eq_getElem hlt⟩

theorem size_rem_pos (a N : Nat) (hN : 0 < N) : size_rem a N = some (a % N) := by
  simp [size_rem, Nat.pos_iff_ne_zero.mp hN]

/-- The `for` loop of `add_task` when every `try_lock` fails: no queue
changes and the task is still the caller's. -/
theorem thread_pool.add_task_loop_all_fail (N idx : Nat) (locks : Nat → Bool)
    (f : task) (hN : 0 < N) (qs : List notification_queue) (hlen : qs.length = N) :
    ∀ n shift, (∀ j, j < n → locks (shift + j) = false) →
      thread_pool.add_task_loop N idx locks n shift (some f) qs
        = some (false, some f, qs) := by
  intro n
  induction n with
  | zero => intro shift _; rfl
  | succ n ih =>
    intro shift hall
    obtain ⟨q, hq⟩ := getElem?_mod qs N (size_add idx shift) hN hlen
    have h0 : locks shift = false := by simpa using hall 0 (Nat.succ_pos n)
    have hrest : ∀ j, j < n → locks (shift + 1 + j) = false := by
      intro j hj
      have := hall (j + 1) (Nat.succ_lt_succ hj)
      rwa [show shift + 1 + j = shift + (j + 1) by omega]
    simp only [thread_pool.add_task_loop, size_rem_pos _ _ hN, hq, h0,
      notification_queue.try_push, Bool.not_false, if_true,
      set_getElem?_same qs _ q hq]
    exact ih (shift + 1) hrest

/-- The `for` loop of `add_task` when attempt `shift + s` is the first whose
`try_lock` succeeds: the task goes to the back of that attempt's queue. -/
theorem thread_pool.add_task_loop_first (N idx : Nat) (locks : Nat → Bool)
    (f : task) (hN : 0 < N) (qs : List notification_queue) (hlen : qs.length = N) :
    ∀ n shift s, s < n → locks (shift + s) = true →
      (∀ j, j < s → locks (shift + j) = false) →
      ∃ q, qs[size_add idx (shift + s) % N]? = some q ∧
        thread_pool.add_task_loop N idx locks n shift (some f) qs
          = some (true, none, qs.set (size_add idx (shift + s) % N) (q.push f)) := by
  intro n
  induction n with
  | zero => intro shift s hs; omega
  | succ n ih =>
    intro shift s hs htrue hfalse
    obtain ⟨q, hq⟩ := getElem?_mod qs N (size_add idx shift) hN hlen
    cases s with
    | zero =>
      have h0 : locks shift = true := by simpa using htrue
      refine ⟨q, by simpa using hq, ?_⟩
      simp [thread_pool.add_task_loop, size_rem_pos _ _ hN, hq, h0,
        notification_queue.try_push, notification_queue.push]
    | succ s =>
      have h0 : locks shift = false := by simpa using hfalse 0 (Nat.succ_pos s)
      have hrest : ∀ j, j < s → locks (shift + 1 + j) = false := by
        intro j hj
        have := hfalse (j + 1) (Nat.succ_lt_succ hj)
        rwa [show shift + 1 + j = shift + (j + 1) by omega]
      have htrue1 : locks (shift + 1 + s) = true := by
        rwa [show shift + 1 + s = shift + (s + 1) by omega]
      obtain ⟨q1, hq1, hloop⟩ :=
        ih (shift + 1) s (Nat.lt_of_succ_lt_succ hs) htrue1 hrest
      rw [show shift + 1 + s = shift + (s + 1) by omega] at hq1 hloop
      refine ⟨q1, hq1, ?_⟩
      simp only [thread_pool.add_task_loop, size_rem_pos _ _ hN, hq, h0,
        notification_queue.try_push, Bool.not_false, if_true,
        set_getElem?_same qs _ q hq]
      exact hloop

/-- The loop bound `count_ * push_iterations` does not wrap. -/
theorem size_mul_two (N : Nat) (hN : N < UINT_MOD) : size_mul N 2 = 2 * N := by
  unfold size_mul SIZE_MOD
  unfold UINT_MOD at hN
  omega

/-- C4, as stated, fails where the `size_t` arithmetic wraps.  Three queues,
counter `2 ^ 64 - 1` (target `t = 0`), first `try_lock` fails, second succeeds:
the second attempt is on queue `(2 ^ 64 - 1 + 1) mod 2 ^ 64 mod 3 = 0` again,
not on queue `(t + 1) mod 3 = 1`, so the task lands in queue 0; and the
counter becomes `0`, not `c + 1`. -/
theorem C4_counter_wrap_counterexample :
    (thread_pool.mk 3 [⟨[], false⟩, ⟨[], false⟩, ⟨[], false⟩] (2 ^ 64 - 1)).add_task
        (fun shift => decide (1 ≤ shift)) ⟨7, 7⟩
      = some (7, thread_pool.mk 3 [⟨[⟨7, 7⟩], false⟩, ⟨[], false⟩, ⟨[], false⟩] 0) ∧
    ((2 ^ 64 - 1) % 3 + 1) % 3 = 1 ∧ (2 ^ 64 - 1) % 3 = 0 := by
  decide

/-- C4, amended: for every pool with `1 ≤ N` queues, every counter value `c`
and every outcome of the lock attempts, `add_task` returns the task's handle,
appends the task at the back of exactly one queue `k` and leaves every other
queue unchanged.  Queue `k` is the queue of the first attempt `s` among
`0, ..., 2N-1` whose `try_push` gets the lock, attempt `s` being on queue
`((c + s) mod 2^64) mod N`; if all `2N` attempts fail, `k` is the target
`c mod N`, by blocking `push`.  The counter becomes `(c + 1) mod 2^64`.  As
long as `c + 2N ≤ 2^64` (nothing wraps) this is the counter plus one and
attempt `s` is on queue `(t + s) mod N` with `t = c mod N`. -/
theorem C4_add_task (p : thread_pool) (hwf : p.wf) (hN : 1 ≤ p.count_)
    (locks : Nat → Bool) (f : task) :
    ∃ k q, k < p.count_ ∧ p.queues_[k]? = some q ∧
      p.add_task locks f
        = some (f.handle,
            { count_ := p.count_
              queues_ := p.queues_.set k { q_ := q.q_ ++ [f], done_ := q.done_ }
              index_ := (p.index_ + 1) % 2 ^ 64 }) ∧
      ((∃ s, s < 2 * p.count_ ∧ locks s = true ∧ (∀ j, j < s → locks j = false) ∧
          k = ((p.index_ + s) % 2 ^ 64) % p.count_) ∨
        ((∀ s, s < 2 * p.count_ → locks s = false) ∧ k = p.index_ % p.count_)) ∧
      (p.index_ + 2 * p.count_ ≤ 2 ^ 64 →
        (p.index_ + 1) % 2 ^ 64 = p.index_ + 1 ∧
        ∀ s, s < 2 * p.count_ →
          ((p.index_ + s) % 2 ^ 64) % p.count_
            = (p.index_ % p.count_ + s) % p.count_) := by
  obtain ⟨N, qs, c⟩ := p
  obtain ⟨hlen, hcount, hidx⟩ := hwf
  simp only at hlen hcount hidx hN ⊢
  have hpos : 0 < N := hN
  have harith : c + 2 * N ≤ 2 ^ 64 →
      (c + 1) % 2 ^ 64 = c + 1 ∧
      ∀ s, s < 2 * N → ((c + s) % 2 ^ 64) % N = (c % N + s) % N := by
    intro hle
    refine ⟨Nat.mod_eq_of_lt (by omega), ?_⟩
    intro s hs
    rw [Nat.mod_eq_of_lt (show c + s < 2 ^ 64 by omega), Nat.add_mod,
      Nat.add_mod (c % N) s N, Nat.mod_mod]
  by_cases hex : ∃ s, s < 2 * N ∧ locks s = true
  · -- some attempt gets the lock: take the first one
    have hfind := Nat.find_spec hex
    have hmin : ∀ j, j < Nat.find hex → locks j = false := by
      intro j hj
      have := Nat.find_min hex hj
      have hj2 : j < 2 * N := lt_trans hj hfind.1
      simpa [hj2] using this
    obtain ⟨q, hq, hloop⟩ :=
      thread_pool.add_task_loop_first N c locks f hpos qs hlen (2 * N) 0
        (Nat.find hex) hfind.1 (by simpa using hfind.2)
        (by intro j hj; simpa using hmin j hj)
    simp only [Nat.zero_add] at hq hloop
    refine ⟨size_add c (Nat.find hex) % N, q, Nat.mod_lt _ hpos, hq, ?_, ?_, harith⟩
    · simp [thread_pool.add_task, size_mul_two N hcount, hloop, size_add,
        SIZE_MOD, notification_queue.push]
    · exact Or.inl ⟨Nat.find hex, hfind.1, hfind.2, hmin, rfl⟩
  · -- every attempt fails: blocking push on the target queue
    have hall : ∀ s, s < 2 * N → locks s = false := by
      intro s hs
      by_contra hne
      exact hex ⟨s, hs, by simpa using hne⟩
    have hloop :=
      thread_pool.add_task_loop_all_fail N c locks f hpos qs hlen (2 * N) 0
        (by intro j hj; simpa using hall j hj)
    obtain ⟨q, hq⟩ := getElem?_mod qs N c hpos hlen
    refine ⟨c % N, q, Nat.mod_lt _ hpos, hq, ?_, Or.inr ⟨hall, rfl⟩, harith⟩
    simp [thread_pool.add_task, size_mul_two N hcount, hloop, size_rem_pos _ _ hpos,
      hq, size_add, SIZE_MOD, notification_queue.push]

/-- Witness for C4: four fresh queues, counter 5, the first two lock attempts
fail; the task goes to queue `(5 + 2) mod 4 = 3`. -/
theorem C4_add_task_witness :
    ∃ k q, k < 4 ∧ (thread_pool.mk 4 (List.replicate 4 ⟨[], false⟩) 5).queues_[k]? = some q ∧
      (thread_pool.mk 4 (List.replicate 4 ⟨[], false⟩) 5).add_task
          (fun shift => decide (2 ≤ shift)) ⟨9, 9⟩
        = some (9,
            { count_ := 4
              queues_ := (List.replicate 4 ⟨[], false⟩).set k
                { q_ := q.q_ ++ [⟨9, 9⟩], done_ := q.done_ }
              index_ := (5 + 1) % 2 ^ 64 }) := by
  obtain ⟨k, q, hk, hq, hadd, _, _⟩ :=
    C4_add_task (thread_pool.mk 4 (List.replicate 4 ⟨[], false⟩) 5)
      ⟨by decide, by decide, by decide⟩ (by decide)
      (fun shift => decide (2 ≤ shift)) ⟨9, 9⟩
  exact ⟨k, q, hk, hq, hadd⟩

/-- C8, the code at the failing input `h = 0`: the constructor takes the hint
as it is, so the pool has `count_ = 0`, no queue and no worker thread, and
every call of `add_task` is undefined (it evaluates `index_ % 0` and indexes
the empty `queues_`).  In general `count_ = h`, not `max h 1`. -/
theorem C8_zero_hint (locks : Nat → Bool) (f : task) (h : Nat) :
    (thread_pool.ctor h).count_ = h ∧
    (thread_pool.ctor 0).count_ = 0 ∧
    (thread_pool.ctor 0).queues_ = [] ∧
    (system.init 0).threads_ = [] ∧
    size_rem (thread_pool.ctor 0).index_ (thread_pool.ctor 0).count_ = none ∧
    (thread_pool.ctor 0).add_task locks f = none := by
  refine ⟨rfl, rfl, rfl, rfl, rfl, rfl⟩

/-! ### The worker loop -/

theorem notification_queue.try_pop_false (q : notification_queue) (a : Bool)
    (x : Option task) (h : (q.try_pop a x).1 = false) :
    q.try_pop a x = (false, x, q) := by
  obtain ⟨l, d⟩ := q
  cases a <;> cases d <;> cases l <;> simp_all [notification_queue.try_pop]

theorem notification_queue.try_pop_true (q : notification_queue) (a : Bool)
    (x : Option task) (h : (q.try_pop a x).1 = true) :
    ∃ t rest, q.q_ = t :: rest ∧ q.done_ = false ∧
      q.try_pop a x = (true, some t, { q_ := rest, done_ := q.done_ }) := by
  obtain ⟨l, d⟩ := q
  cases a <;> cases d <;> cases l <;> simp_all [notification_queue.try_pop]

theorem size_add_small (a b : Nat) (h : a + b < SIZE_MOD) : size_add a b = a + b :=
  Nat.mod_eq_of_lt h

/-- The scan of `run` when no attempt succeeds: nothing changes, `f` stays
not valid. -/
theorem thread_pool.run_scan_all_fail (N i : Nat) (locks : Nat → Bool)
    (hN : 0 < N) (qs : List notification_queue) (hlen : qs.length = N) :
    ∀ n shift, i + shift + n ≤ SIZE_MOD →
      (∀ j, j < n → ¬ scan_hit N i locks qs (shift + j)) →
      thread_pool.run_scan N i locks n shift none qs = some (none, qs) := by
  intro n
  induction n with
  | zero => intro shift _ _; rfl
  | succ n ih =>
    intro shift hb hall
    have hadd : size_add i shift = i + shift := size_add_small _ _ (by omega)
    obtain ⟨q, hq⟩ := getElem?_mod qs N (i + shift) hN hlen
    have h0 : (q.try_pop (locks shift) none).1 = false := by
      have := hall 0 (Nat.succ_pos n)
      simp only [scan_hit, Nat.add_zero, hq, Option.some.injEq, exists_eq_left',
        Bool.not_eq_true] at this
      exact this
    have hrest : ∀ j, j < n → ¬ scan_hit N i locks qs (shift + 1 + j) := by
      intro j hj
      have := hall (j + 1) (Nat.succ_lt_succ hj)
      rwa [show shift + 1 + j = shift + (j + 1) by omega]
    simp only [thread_pool.run_scan, size_rem_pos _ _ hN, hadd, hq,
      q.try_pop_false _ _ h0, set_getElem?_same qs _ q hq]
    exact ih (shift + 1) (by omega) hrest

/-- The scan of `run` when attempt `shift + s` is the first that succeeds:
`f` becomes the front task of that attempt's queue, which loses it; no other
queue changes. -/
theorem thread_pool.run_scan_first (N i : Nat) (locks : Nat → Bool)
    (hN : 0 < N) (qs : List notification_queue) (hlen : qs.length = N) :
    ∀ n shift s, i + shift + n ≤ SIZE_MOD → s < n →
      scan_hit N i locks qs (shift + s) →
      (∀ j, j < s → ¬ scan_hit N i locks qs (shift + j)) →
      ∃ q f rest, qs[(i + (shift + s)) % N]? = some q ∧ q.q_ = f :: rest ∧
        q.done_ = false ∧
        thread_pool.run_scan N i locks n shift none qs
          = some (some f, qs.set ((i + (shift + s)) % N)
              { q_ := rest, done_ := q.done_ }) := by
  intro n
  induction n with
  | zero => intro shift s _ hs; omega
  | succ n ih =>
    intro shift s hb hs hhit hmiss
    have hadd : size_add i shift = i + shift := size_add_small _ _ (by omega)
    obtain ⟨q, hq⟩ := getElem?_mod qs N (i + shift) hN hlen
    cases s with
    | zero =>
      obtain ⟨q0, hq0, hpop⟩ := hhit
      simp only [Nat.add_zero] at hq0 hpop ⊢
      rw [hq] at hq0
      cases hq0
      obtain ⟨t, rest, hl, hd, heq⟩ := q.try_pop_true _ _ hpop
      refine ⟨q, t, rest, hq, hl, hd, ?_⟩
      simp only [thread_pool.run_scan, size_rem_pos _ _ hN, hadd, hq, heq]
    | succ s =>
      have h0 : (q.try_pop (locks shift) none).1 = false := by
        have := hmiss 0 (Nat.succ_pos s)
        simp only [scan_hit, Nat.add_zero, hq, Option.some.injEq, exists_eq_left',
          Bool.not_eq_true] at this
        exact this
      have hrest : ∀ j, j < s → ¬ scan_hit N i locks qs (shift + 1 + j) := by
        intro j hj
        have := hmiss (j + 1) (Nat.succ_lt_succ hj)
        rwa [show shift + 1 + j = shift + (j + 1) by omega]
      have hhit1 : scan_hit N i locks qs (shift + 1 + s) := by
        rwa [show shift + 1 + s = shift + (s + 1) by omega]
      obtain ⟨q1, f, rest, hq1, hl, hd, hscan⟩ :=
        ih (shift + 1) s (by omega) (Nat.lt_of_succ_lt_succ hs) hhit1 hrest
      rw [show shift + 1 + s = shift + (s + 1) by omega] at hq1 hscan
      refine ⟨q1, f, rest, hq1, hl, hd, ?_⟩
      simp only [thread_pool.run_scan, size_rem_pos _ _ hN, hadd, hq,
        q.try_pop_false _ _ h0, set_getElem?_same qs _ q hq]
      exact hscan

/-- Among the attempts below `n`, if one succeeds there is a first one. -/
theorem exists_first (P : Nat → Prop) (n : Nat) (h : ∃ s, s < n ∧ P s) :
    ∃ s, s < n ∧ P s ∧ ∀ j, j < s → ¬ P j := by
  classical
  have hex : ∃ s, P s := h.imp fun _ hs => hs.2
  obtain ⟨s, hs, hP⟩ := h
  refine ⟨Nat.find hex, lt_of_le_of_lt (Nat.find_min' hex hP) hs, Nat.find_spec hex, ?_⟩
  intro j hj
  exact Nat.find_min hex hj

/-- One pass of the worker loop when the scan has a first success. -/
theorem thread_pool.run_iteration_hit (p : thread_pool) (hwf : p.wf) (i : Nat)
    (hi : i < p.count_) (locks : Nat → Bool) (s : Nat) (hs : s < p.count_)
    (hhit : scan_hit p.count_ i locks p.queues_ s)
    (hmiss : ∀ j, j < s → ¬ scan_hit p.count_ i locks p.queues_ j) :
    ∃ q f rest, p.queues_[(i + s) % p.count_]? = some q ∧ q.q_ = f :: rest ∧
      q.done_ = false ∧
      p.run_iteration i locks
        = .executed f (p.queues_.set ((i + s) % p.count_)
            { q_ := rest, done_ := q.done_ }) := by
  obtain ⟨hlen, hcount, _⟩ := hwf
  have hb : i + 0 + p.count_ ≤ SIZE_MOD := by
    unfold UINT_MOD at hcount
    unfold SIZE_MOD
    omega
  obtain ⟨q, f, rest, hq, hl, hd, hscan⟩ :=
    thread_pool.run_scan_first p.count_ i locks (by omega) p.queues_ hlen
      p.count_ 0 s hb hs (by simpa using hhit) (by simpa using hmiss)
  simp only [Nat.zero_add] at hq hscan
  exact ⟨q, f, rest, hq, hl, hd, by simp only [thread_pool.run_iteration, hscan]⟩

/-- One pass of the worker loop when no attempt of the scan succeeds: the
outcome is that of the blocking `pop` on the own queue. -/
theorem thread_pool.run_iteration_miss (p : thread_pool) (hwf : p.wf) (i : Nat)
    (hi : i < p.count_) (locks : Nat → Bool)
    (hmiss : ∀ s, s < p.count_ → ¬ scan_hit p.count_ i locks p.queues_ s) :
    ∃ q, p.queues_[i]? = some q ∧
      (q.done_ = true → p.run_iteration i locks = .returned p.queues_) ∧
      (q.done_ = false → q.q_ = [] → p.run_iteration i locks = .waiting p.queues_) ∧
      (q.done_ = false → ∀ f rest, q.q_ = f :: rest →
        p.run_iteration i locks
          = .executed f (p.queues_.set i { q_ := rest, done_ := false })) := by
  obtain ⟨hlen, hcount, _⟩ := hwf
  have hb : i + 0 + p.count_ ≤ SIZE_MOD := by
    unfold UINT_MOD at hcount
    unfold SIZE_MOD
    omega
  have hscan :=
    thread_pool.run_scan_all_fail p.count_ i locks (by omega) p.queues_ hlen
      p.count_ 0 hb (by simpa using hmiss)
  have hlt : i < p.queues_.length := by omega
  have hq : p.queues_[i]? = some p.queues_[i] := List.getElem?_eq_getElem hlt
  refine ⟨p.queues_[i], hq, ?_, ?_, ?_⟩
  · intro hd
    simp [thread_pool.run_iteration, hscan, hq, notification_queue.pop,
      notification_queue.ready, hd, set_getElem?_same p.queues_ i _ hq]
  · intro hd hl
    simp [thread_pool.run_iteration, hscan, hq, notification_queue.pop,
      notification_queue.ready, hd, hl]
  · intro hd f rest hl
    simp [thread_pool.run_iteration, hscan, hq, notification_queue.pop,
      notification_queue.ready, hd, hl]

/-- C10, as stated, fails in its last part: one queue that is done and still
holds a task.  The scan finds nothing (`try_pop` refuses a done queue), `pop`
returns `false`, and the loop terminates although the home queue is not
empty. -/
theorem C10_returns_with_pending_task :
    (thread_pool.mk 1 [⟨[⟨0, 0⟩], true⟩] 1).run_iteration 0 (fun _ => true)
      = .returned [⟨[⟨0, 0⟩], true⟩] := by
  decide

/-- C10, amended: for every pool with `1 ≤ N` queues and worker index `i < N`,
one pass of the worker loop scans the queues `i, (i+1) mod N, ...,
(i+N-1) mod N` with `try_pop` and stops at the first success: it executes the
front task of the first queue in that order whose `try_pop` succeeds, and no
other queue is modified.  Only if no `try_pop` of the scan succeeds does it
perform the blocking `pop` on its own queue `i`: it returns if that queue is
done, waits if it is empty and not done, and otherwise executes its front
task.  The loop terminates exactly when the scan found no task and the home
queue `i` is done (empty or not). -/
theorem C10_worker_iteration (p : thread_pool) (hwf : p.wf) (i : Nat)
    (hi : i < p.count_) (locks : Nat → Bool) :
    (∀ s, s < p.count_ → scan_hit p.count_ i locks p.queues_ s →
      (∀ j, j < s → ¬ scan_hit p.count_ i locks p.queues_ j) →
      ∃ q f rest, p.queues_[(i + s) % p.count_]? = some q ∧ q.q_ = f :: rest ∧
        p.run_iteration i locks
          = .executed f (p.queues_.set ((i + s) % p.count_)
              { q_ := rest, done_ := q.done_ })) ∧
    ((∀ s, s < p.count_ → ¬ scan_hit p.count_ i locks p.queues_ s) →
      ∃ q, p.queues_[i]? = some q ∧
        (q.done_ = true → p.run_iteration i locks = .returned p.queues_) ∧
        (q.done_ = false → q.q_ = [] →
          p.run_iteration i locks = .waiting p.queues_) ∧
        (q.done_ = false → ∀ f rest, q.q_ = f :: rest →
          p.run_iteration i locks
            = .executed f (p.queues_.set i { q_ := rest, done_ := false }))) ∧
    ((∃ qs, p.run_iteration i locks = .returned qs) ↔
      ((∀ s, s < p.count_ → ¬ scan_hit p.count_ i locks p.queues_ s) ∧
        ∃ q, p.queues_[i]? = some q ∧ q.done_ = true)) := by
  refine ⟨?_, p.run_iteration_miss hwf i hi locks, ?_⟩
  · intro s hs hhit hmiss
    obtain ⟨q, f, rest, hq, hl, _, hrun⟩ :=
      p.run_iteration_hit hwf i hi locks s hs hhit hmiss
    exact ⟨q, f, rest, hq, hl, hrun⟩
  · constructor
    · rintro ⟨qs, hret⟩
      by_cases hex : ∃ s, s < p.count_ ∧ scan_hit p.count_ i locks p.queues_ s
      · obtain ⟨s, hs, hhit, hmiss⟩ := exists_first _ _ hex
        obtain ⟨q, f, rest, _, _, _, hrun⟩ :=
          p.run_iteration_hit hwf i hi locks s hs hhit hmiss
        rw [hrun] at hret
        cases hret
      · have hmiss : ∀ s, s < p.count_ → ¬ scan_hit p.count_ i locks p.queues_ s :=
          fun s hs hhit => hex ⟨s, hs, hhit⟩
        refine ⟨hmiss, ?_⟩
        obtain ⟨q, hq, _, hwait, hexec⟩ := p.run_iteration_miss hwf i hi locks hmiss
        refine ⟨q, hq, ?_⟩
        by_contra hd
        have hd : q.done_ = false := by simpa using hd
        cases hl : q.q_ with
        | nil => rw [hwait hd hl] at hret; cases hret
        | cons f rest => rw [hexec hd f rest hl] at hret; cases hret
    · rintro ⟨hmiss, q, hq, hd⟩
      obtain ⟨q1, hq1, hdone, _, _⟩ := p.run_iteration_miss hwf i hi locks hmiss
      rw [hq] at hq1
      cases hq1
      exact ⟨_, hdone hd⟩

/-- Witness for C10: three queues, worker 1; queue 1 is empty, queue 2 holds
two tasks, so the second attempt of the scan is the first success and the
worker executes the front task of queue 2. -/
theorem C10_worker_iteration_witness :
    ∃ q f rest,
      (thread_pool.mk 3 [⟨[⟨5, 5⟩], false⟩, ⟨[], false⟩, ⟨[⟨6, 6⟩, ⟨7, 7⟩], false⟩] 3).queues_[(1 + 1) % 3]?
        = some q ∧ q.q_ = f :: rest ∧
      (thread_pool.mk 3 [⟨[⟨5, 5⟩], false⟩, ⟨[], false⟩, ⟨[⟨6, 6⟩, ⟨7, 7⟩], false⟩] 3).run_iteration
          1 (fun _ => true)
        = .executed f
            ((thread_pool.mk 3 [⟨[⟨5, 5⟩], false⟩, ⟨[], false⟩, ⟨[⟨6, 6⟩, ⟨7, 7⟩], false⟩] 3).queues_.set
              ((1 + 1) % 3) { q_ := rest, done_ := q.done_ }) :=
  (C10_worker_iteration
    (thread_pool.mk 3 [⟨[⟨5, 5⟩], false⟩, ⟨[], false⟩, ⟨[⟨6, 6⟩, ⟨7, 7⟩], false⟩] 3)
    ⟨by decide, by decide, by decide⟩ 1 (by decide) (fun _ => true)).1 1 (by decide)
    ⟨⟨[⟨6, 6⟩, ⟨7, 7⟩], false⟩, by decide, by decide⟩
    (by
      intro j hj
      have hj0 : j = 0 := by omega
      subst hj0
      rintro ⟨q, hq, hpop⟩
      have hq1 : q = ⟨[], false⟩ := by
        have : (some (⟨[], false⟩ : notification_queue)) = some q := hq
        exact (Option.some.inj this).symm
      subst hq1
      exact absurd hpop (by decide))

/-! ## Theorems: interleavings -/

/-- Replacing one element of a list of containers: the contents of the other
containers stay as they are. -/
theorem flatten_map_set {α β : Type} (g : β → List α) (l : List β) (k : Nat)
    (b b1 : β) (h : l[k]? = some b) :
    ∃ r : List α, ((l.map g).flatten).Perm (g b ++ r) ∧
      (((l.set k b1).map g).flatten).Perm (g b1 ++ r) := by
  induction l generalizing k with
  | nil => simp at h
  | cons a l ih =>
    cases k with
    | zero =>
      simp only [List.getElem?_cons_zero, Option.some.injEq] at h
      subst h
      exact ⟨(l.map g).flatten, by simp, by simp⟩
    | succ k =>
      simp only [List.getElem?_cons_succ] at h
      obtain ⟨r, h1, h2⟩ := ih k h
      refine ⟨g a ++ r, ?_, ?_⟩
      · simp only [List.map_cons, List.flatten_cons]
        exact (List.Perm.append_left (g a) h1).trans (by
          rw [← List.append_assoc, ← List.append_assoc]
          exact List.Perm.append_right r List.perm_append_comm)
      · simp only [List.set_cons_succ, List.map_cons, List.flatten_cons]
        exact (List.Perm.append_left (g a) h2).trans (by
          rw [← List.append_assoc, ← List.append_assoc]
          exact List.Perm.append_right r List.perm_append_comm)

/-- Counting version of `flatten_map_set`. -/
theorem flatten_map_set_count {β : Type} (g : β → List task) (l : List β) (k : Nat)
    (b b1 : β) (h : l[k]? = some b) (t : task) :
    (((l.set k b1).map g).flatten).count t + (g b).count t
      = ((l.map g).flatten).count t + (g b1).count t := by
  obtain ⟨r, h1, h2⟩ := flatten_map_set g l k b b1 h
  rw [h1.count_eq, h2.count_eq, List.count_append, List.count_append]
  omega

/-- Replacing queue `k`: the pending tasks change by the difference of the
old and the new queue `k`. -/
theorem thread_pool.pending_set_count (qs : List notification_queue) (k : Nat)
    (q q1 : notification_queue) (h : qs[k]? = some q) (t : task) :
    (thread_pool.pending (qs.set k q1)).count t + q.q_.count t
      = (thread_pool.pending qs).count t + q1.q_.count t :=
  flatten_map_set_count notification_queue.q_ qs k q q1 h t

/-- The `for` loop of `add_task`, whatever the locks do: either it returned
after appending the task to one queue, or it ran to its end, the queues are
as before and the task is still the caller's. -/
theorem thread_pool.add_task_loop_shape (N idx : Nat) (locks : Nat → Bool) (f : task) :
    ∀ n shift (qs qs1 : List notification_queue) (b : Bool) (g : Option task),
      thread_pool.add_task_loop N idx locks n shift (some f) qs = some (b, g, qs1) →
      (b = true ∧ ∃ k q, qs[k]? = some q ∧ qs1 = qs.set k (q.push f)) ∨
      (b = false ∧ g = some f ∧ qs1 = qs) := by
  intro n
  induction n with
  | zero =>
    intro shift qs qs1 b g h
    simp only [thread_pool.add_task_loop, Option.some.injEq, Prod.mk.injEq] at h
    exact Or.inr ⟨h.1.symm, h.2.1.symm, h.2.2.symm⟩
  | succ n ih =>
    intro shift qs qs1 b g h
    unfold thread_pool.add_task_loop at h
    cases hk : size_rem (size_add idx shift) N with
    | none => simp [hk] at h
    | some k =>
      cases hq : qs[k]? with
      | none => simp [hk, hq] at h
      | some q =>
        cases hl : locks shift with
        | false =>
          simp only [hk, hq, hl, notification_queue.try_push, Bool.not_false,
            if_true, set_getElem?_same qs k q hq] at h
          exact ih (shift + 1) qs qs1 b g h
        | true =>
          simp only [hk, hq, hl, notification_queue.try_push, Bool.not_true,
            Bool.false_eq_true, if_false, Option.some.injEq, Prod.mk.injEq] at h
          obtain ⟨hb, _, hqs⟩ := h
          exact Or.inl ⟨hb.symm, k, q, hq, hqs.symm⟩

/-- A call of `add_task` that returns has appended the task to exactly one
queue, changed no other queue, and moved the counter on by one. -/
theorem thread_pool.add_task_shape (p p1 : thread_pool) (locks : Nat → Bool)
    (f : task) (r : Nat) (h : p.add_task locks f = some (r, p1)) :
    r = f.handle ∧ ∃ k q, p.queues_[k]? = some q ∧
      p1 = { count_ := p.count_
             queues_ := p.queues_.set k (q.push f)
             index_ := size_add p.index_ 1 } := by
  unfold thread_pool.add_task at h
  cases hloop : thread_pool.add_task_loop p.count_ p.index_ locks
      (size_mul p.count_ 2) 0 (some f) p.queues_ with
  | none => simp [hloop] at h
  | some res =>
    obtain ⟨b, g, qs1⟩ := res
    rcases thread_pool.add_task_loop_shape _ _ _ _ _ _ _ _ _ _ hloop with
      ⟨hb, k, q, hq, hqs⟩ | ⟨hb, hg, hqs⟩
    · subst hb hqs
      simp only [hloop, Option.some.injEq, Prod.mk.injEq] at h
      exact ⟨h.1.symm, k, q, hq, h.2.symm⟩
    · subst hb hg hqs
      simp only [hloop] at h
      cases hk : size_rem p.index_ p.count_ with
      | none => simp [hk] at h
      | some k =>
        cases hq : p.queues_[k]? with
        | none => simp [hk, hq] at h
        | some q =>
          simp only [hk, hq, Option.some.injEq, Prod.mk.injEq] at h
          exact ⟨h.1.symm, k, q, hq, h.2.symm⟩

/-- A call of `add_task` that returns has put the task into the queues exactly
once and has removed nothing. -/
theorem thread_pool.add_task_places (p p1 : thread_pool) (locks : Nat → Bool)
    (f : task) (r : Nat) (h : p.add_task locks f = some (r, p1)) (t : task) :
    (thread_pool.pending p1.queues_).count t
      = (thread_pool.pending p.queues_).count t + [f].count t := by
  obtain ⟨_, k, q, hq, hp⟩ := thread_pool.add_task_shape p p1 locks f r h
  subst hp
  have := thread_pool.pending_set_count p.queues_ k q (q.push f) hq t
  have hpush : (q.push f).q_ = q.q_ ++ [f] := rfl
  rw [hpush, List.count_append] at this
  simp only
  omega

theorem notification_queue.pop_some_true (q q1 : notification_queue)
    (x y : Option task) (h : q.pop x = some (true, y, q1)) :
    ∃ f, y = some f ∧ q.q_ = f :: q1.q_ ∧ q.done_ = false ∧ q1.done_ = false := by
  obtain ⟨l, d⟩ := q
  cases d <;> cases l <;>
    simp [notification_queue.pop, notification_queue.ready] at h
  obtain ⟨hy, hq⟩ := h
  subst hq
  exact ⟨_, hy.symm, rfl, rfl, rfl⟩

theorem notification_queue.pop_some_false (q q1 : notification_queue)
    (x y : Option task) (h : q.pop x = some (false, y, q1)) :
    y = x ∧ q1 = q ∧ q.done_ = true := by
  obtain ⟨l, d⟩ := q
  cases d <;> cases l <;>
    simp [notification_queue.pop, notification_queue.ready] at h
  all_goals exact ⟨h.1.symm, h.2.symm, rfl⟩

/-- The four kinds of step of a worker. -/
theorem worker_step_cases (p p1 : thread_pool) (i : Nat) (a : Bool) (w w1 : worker)
    (ran : List task) (h : worker_step p i a w = some (w1, p1, ran)) :
    (∃ f, w = .holding f ∧ w1 = .scan 0 ∧ p1 = p ∧ ran = [f]) ∨
    (∃ shift, w = .scan shift ∧ shift < p.count_ ∧ w1 = .scan (shift + 1) ∧
      p1 = p ∧ ran = []) ∨
    (∃ shift k q f rest, w = .scan shift ∧ p.queues_[k]? = some q ∧
      q.q_ = f :: rest ∧ q.done_ = false ∧ w1 = .holding f ∧
      p1 = { p with queues_ := p.queues_.set k { q_ := rest, done_ := false } } ∧
      ran = []) ∨
    (∃ shift q, w = .scan shift ∧ p.queues_[i]? = some q ∧ q.done_ = true ∧
      w1 = .exited ∧ p1 = p ∧ ran = []) := by
  cases w with
  | exited => simp [worker_step] at h
  | holding f =>
    simp only [worker_step, Option.some.injEq, Prod.mk.injEq] at h
    obtain ⟨hw, hp, hran⟩ := h
    exact Or.inl ⟨f, rfl, hw.symm, hp.symm, hran.symm⟩
  | scan shift =>
    simp only [worker_step] at h
    by_cases hlt : shift < p.count_
    · rw [if_pos hlt] at h
      cases hk : size_rem (size_add i shift) p.count_ with
      | none => simp [hk] at h
      | some k =>
        cases hq : p.queues_[k]? with
        | none => simp [hk, hq] at h
        | some q =>
          rw [hk] at h
          cases hb : (q.try_pop a none).1 with
          | false =>
            simp only [hq, q.try_pop_false a none hb, Option.some.injEq,
              Prod.mk.injEq, set_getElem?_same p.queues_ k q hq] at h
            obtain ⟨hw, hp, hran⟩ := h
            exact Or.inr (Or.inl ⟨shift, rfl, hlt, hw.symm, hp.symm, hran.symm⟩)
          | true =>
            obtain ⟨f, rest, hl, hd, heq⟩ := q.try_pop_true a none hb
            rw [hd] at heq
            simp only [hq, heq, Option.some.injEq, Prod.mk.injEq] at h
            obtain ⟨hw, hp, hran⟩ := h
            exact Or.inr (Or.inr (Or.inl
              ⟨shift, k, q, f, rest, rfl, hq, hl, hd, hw.symm, hp.symm, hran.symm⟩))
    · rw [if_neg hlt] at h
      cases hq : p.queues_[i]? with
      | none => simp [hq] at h
      | some q =>
        rcases hres : q.pop none with _ | ⟨b, y, q1⟩
        · simp [hq, hres] at h
        · cases b with
          | false =>
            obtain ⟨_, hq1, hd⟩ := q.pop_some_false q1 none y hres
            subst hq1
            simp only [hq, hres, Option.some.injEq, Prod.mk.injEq,
              set_getElem?_same p.queues_ i _ hq] at h
            obtain ⟨hw, hp, hran⟩ := h
            exact Or.inr (Or.inr (Or.inr
              ⟨shift, q1, rfl, rfl, hd, hw.symm, hp.symm, hran.symm⟩))
          | true =>
            obtain ⟨f, hy, hl, hd, hd1⟩ := q.pop_some_true q1 none y hres
            subst hy
            simp only [hq, hres, Option.some.injEq, Prod.mk.injEq] at h
            obtain ⟨hw, hp, hran⟩ := h
            have hq1 : q1 = { q_ := q1.q_, done_ := false } := by
              cases q1
              simp_all
            rw [hq1] at hp
            exact Or.inr (Or.inr (Or.inl
              ⟨shift, i, q, f, q1.q_, rfl, hq, hl, hd, hw.symm, hp.symm, hran.symm⟩))

/-- A step of a worker moves at most one task: from a queue to the worker, or
from the worker to the log of executed tasks.  Nothing is copied or lost. -/
theorem worker_step_places (p : thread_pool) (i : Nat) (a : Bool) (w w1 : worker)
    (p1 : thread_pool) (ran : List task)
    (h : worker_step p i a w = some (w1, p1, ran)) (t : task) :
    (thread_pool.pending p1.queues_).count t + w1.held.count t + ran.count t
      = (thread_pool.pending p.queues_).count t + w.held.count t := by
  rcases worker_step_cases _ _ _ _ _ _ _ h with
    ⟨f, hw, hw1, hp, hran⟩ | ⟨shift, hw, _, hw1, hp, hran⟩ |
    ⟨shift, k, q, f, rest, hw, hq, hl, _, hw1, hp, hran⟩ |
    ⟨shift, q, hw, _, _, hw1, hp, hran⟩
  · subst hw hw1 hp hran
    simp [worker.held]
  · subst hw hw1 hp hran
    simp [worker.held]
  · subst hw hw1 hp hran
    have := thread_pool.pending_set_count p.queues_ k q
      { q_ := rest, done_ := false } hq t
    rw [hl, List.count_cons] at this
    simp only [worker.held, List.count_cons, List.count_nil] at this ⊢
    omega
  · subst hw hw1 hp hran
    simp [worker.held]

/-- All tasks held by workers. -/
theorem held_set_count (ws : List worker) (i : Nat) (w w1 : worker)
    (h : ws[i]? = some w) (t : task) :
    (((ws.set i w1).map worker.held).flatten).count t + w.held.count t
      = ((ws.map worker.held).flatten).count t + w1.held.count t :=
  flatten_map_set_count worker.held ws i w w1 h t

/-- A step keeps every task in exactly as many places as before, and a call of
`add_task` adds its task to one place. -/
theorem system.step_places (s s1 : system) (e : event) (h : s.step e = some s1)
    (t : task) :
    s1.places.count t + s.submitted.count t
      = s.places.count t + s1.submitted.count t := by
  cases e with
  | add_task f locks =>
    unfold system.step at h
    rcases hadd : s.pool.add_task locks f with _ | ⟨r, p1⟩
    · simp [hadd] at h
    · simp only [hadd, Option.some.injEq] at h
      subst h
      have := thread_pool.add_task_places _ _ _ _ _ hadd t
      simp only [system.places, List.count_append]
      omega
  | worker i a =>
    unfold system.step at h
    cases hw : s.threads_[i]? with
    | none => simp [hw] at h
    | some w =>
      rcases hstep : worker_step s.pool i a w with _ | ⟨w1, p1, ran⟩
      · simp [hw, hstep] at h
      · simp only [hw, hstep, Option.some.injEq] at h
        subst h
        have h1 := worker_step_places _ _ _ _ _ _ _ hstep t
        have h2 := held_set_count s.threads_ i w w1 hw t
        simp only [system.places, List.count_append]
        omega

/-- The invariant of exactly-once placement along any interleaving. -/
theorem system.steps_places (es : List event) :
    ∀ s s1 : system, s.steps es = some s1 → ∀ t : task,
      s1.places.count t + s.submitted.count t
        = s.places.count t + s1.submitted.count t := by
  induction es with
  | nil =>
    intro s s1 h t
    simp only [system.steps, Option.some.injEq] at h
    subst h
    rfl
  | cons e es ih =>
    intro s s1 h t
    unfold system.steps at h
    cases hs : s.step e with
    | none => simp [hs] at h
    | some s2 =>
      simp only [hs] at h
      have h1 := system.step_places s s2 e hs t
      have h2 := ih s2 s1 h t
      omega

theorem system.init_places (h : Nat) : (system.init h).places = [] := by
  simp [system.places, system.init, thread_pool.ctor, thread_pool.pending,
    worker.held, List.eq_nil_iff_forall_not_mem]

/-- In every reachable state the places hold exactly the submitted tasks. -/
theorem system.reachable_places (h : Nat) (s : system)
    (hs : (system.init h).reachable s) : s.places.Perm s.submitted := by
  obtain ⟨es, hes⟩ := hs
  rw [List.perm_iff_count]
  intro t
  have := system.steps_places es _ _ hes t
  rw [system.init_places] at this
  simpa [system.init] using this

/-- The tasks of the scenario in `main`: task `i` fulfils handle `i` with the
value `i`. -/
theorem nodup_main_tasks (n : Nat) : (main_tasks n).Nodup :=
  List.Nodup.map (fun a b hab => by simpa using congrArg task.handle hab)
    (List.nodup_range n)

/-! ### A pool of size one: submission order -/

/-- With one queue and one worker, a step of the worker takes the front task
of the queue or runs the task it holds: the order is kept. -/
theorem worker_step_fifo (p p1 : thread_pool) (q : notification_queue) (i : Nat)
    (a : Bool) (w w1 : worker) (ran : List task) (hc : p.count_ = 1)
    (hq : p.queues_ = [q]) (h : worker_step p i a w = some (w1, p1, ran)) :
    p1.count_ = 1 ∧ ∃ q1, p1.queues_ = [q1] ∧
      ran ++ w1.held ++ q1.q_ = w.held ++ q.q_ := by
  rcases worker_step_cases _ _ _ _ _ _ _ h with
    ⟨f, hw, hw1, hp, hran⟩ | ⟨shift, hw, _, hw1, hp, hran⟩ |
    ⟨shift, k, q0, f, rest, hw, hq0, hl, _, hw1, hp, hran⟩ |
    ⟨shift, q0, hw, _, _, hw1, hp, hran⟩
  · subst hw hw1 hp hran
    exact ⟨hc, q, hq, by simp [worker.held]⟩
  · subst hw hw1 hp hran
    exact ⟨hc, q, hq, by simp [worker.held]⟩
  · subst hw hw1 hp hran
    have hk : k = 0 := by
      have hlt := (List.getElem?_eq_some.mp hq0).1
      rw [hq] at hlt
      simpa using hlt
    subst hk
    rw [hq] at hq0
    simp only [List.getElem?_cons_zero, Option.some.injEq] at hq0
    subst hq0
    exact ⟨hc, ⟨rest, false⟩, by simp [hq], by simp [worker.held, hl]⟩
  · subst hw hw1 hp hran
    exact ⟨hc, q, hq, by simp [worker.held]⟩

theorem system.step_fifo (s s1 : system) (e : event) (h : s.step e = some s1)
    (hinv : fifo_order s) : fifo_order s1 := by
  obtain ⟨hc, q, w, hq, hw, hord⟩ := hinv
  cases e with
  | add_task f locks =>
    unfold system.step at h
    rcases hadd : s.pool.add_task locks f with _ | ⟨r, p1⟩
    · simp [hadd] at h
    · simp only [hadd, Option.some.injEq] at h
      subst h
      obtain ⟨_, k, q0, hq0, hp⟩ := thread_pool.add_task_shape _ _ _ _ _ hadd
      subst hp
      have hk : k = 0 := by
        have hlt := (List.getElem?_eq_some.mp hq0).1
        rw [hq] at hlt
        simpa using hlt
      subst hk
      rw [hq] at hq0
      simp only [List.getElem?_cons_zero, Option.some.injEq] at hq0
      subst hq0
      refine ⟨hc, q.push f, w, by simp [hq], hw, ?_⟩
      simp only [notification_queue.push, ← hord, List.append_assoc]
  | worker i a =>
    unfold system.step at h
    cases hwi : s.threads_[i]? with
    | none => simp [hwi] at h
    | some w0 =>
      have hi : i = 0 := by
        have hlt := (List.getElem?_eq_some.mp hwi).1
        rw [hw] at hlt
        simpa using hlt
      subst hi
      rw [hw] at hwi
      simp only [List.getElem?_cons_zero, Option.some.injEq] at hwi
      subst hwi
      rcases hstep : worker_step s.pool 0 a w with _ | ⟨w1, p1, ran⟩
      · simp [hw, hstep] at h
      · simp only [hw, List.getElem?_cons_zero, hstep, Option.some.injEq] at h
        subst h
        obtain ⟨hc1, q1, hq1, hmove⟩ := worker_step_fifo _ _ q 0 a w w1 ran hc hq hstep
        refine ⟨hc1, q1, w1, hq1, by simp, ?_⟩
        simp only [← hord, List.append_assoc] at hmove ⊢
        rw [hmove]

theorem system.steps_fifo (es : List event) :
    ∀ s s1 : system, s.steps es = some s1 → fifo_order s → fifo_order s1 := by
  induction es with
  | nil =>
    intro s s1 h hinv
    simp only [system.steps, Option.some.injEq] at h
    exact h ▸ hinv
  | cons e es ih =>
    intro s s1 h hinv
    unfold system.steps at h
    cases hs : s.step e with
    | none => simp [hs] at h
    | some s2 =>
      simp only [hs] at h
      exact ih s2 s1 h (system.step_fifo s s2 e hs hinv)

/-- C5: FIFO order.  Tasks `t1, ..., tn` pushed with blocking `push` onto a
fresh queue are returned by `n` successive pops in exactly that order; on a
queue that already holds tasks (and is not done) the pops first return those
and then `t1, ..., tn` in order.  In a pool of size one, in every state that
an interleaving of `add_task` calls and worker steps reaches, the executed
tasks, followed by the task the worker holds and the queue from front to
back, are the submitted tasks in submission order: tasks are executed in the
order of their submission. -/
theorem C5_fifo (q : notification_queue) (ts : List task) (hq : q.done_ = false)
    (s : system) (hs : (system.init 1).reachable s) :
    ((notification_queue.mk [] false).push_all ts).pop_n ts.length
      = (ts, notification_queue.mk [] false) ∧
    (q.push_all ts).pop_n (q.q_.length + ts.length)
      = (q.q_ ++ ts, notification_queue.mk [] false) ∧
    (∃ q1 w1, s.pool.queues_ = [q1] ∧ s.threads_ = [w1] ∧
      s.executed ++ w1.held ++ q1.q_ = s.submitted) ∧
    (∃ later, s.executed ++ later = s.submitted) := by
  have h1 : ∀ l : List task,
      ((notification_queue.mk l false).push_all ts).pop_n (l.length + ts.length)
        = (l ++ ts, notification_queue.mk [] false) := by
    intro l
    rw [notification_queue.push_all_eq, ← List.length_append]
    exact notification_queue.pop_n_length (l ++ ts)
  obtain ⟨es, hes⟩ := hs
  have hinit : fifo_order (system.init 1) :=
    ⟨rfl, ⟨[], false⟩, .scan 0, rfl, rfl, rfl⟩
  obtain ⟨_, q1, w1, hq1, hw1, hord⟩ := system.steps_fifo es _ _ hes hinit
  refine ⟨by simpa using h1 [], ?_, ⟨q1, w1, hq1, hw1, hord⟩, ?_⟩
  · obtain ⟨l, d⟩ := q
    simp only at hq
    subst hq
    exact h1 l
  · exact ⟨w1.held ++ q1.q_, by rw [← List.append_assoc]; exact hord⟩

/-- Witness for C5: a queue holding one task onto which two more are pushed,
and the pool of size one after three submissions, of which the worker has
taken and run the first. -/
theorem C5_fifo_witness :
    ((notification_queue.mk [⟨0, 0⟩] false).push_all [⟨1, 1⟩, ⟨2, 2⟩]).pop_n (1 + 2)
      = ([⟨0, 0⟩, ⟨1, 1⟩, ⟨2, 2⟩], notification_queue.mk [] false) ∧
    (∃ q1 w1,
      (system.mk ⟨1, [⟨[⟨1, 1⟩, ⟨2, 2⟩], false⟩], 3⟩ [.scan 0] (main_tasks 3)
        [⟨0, 0⟩]).pool.queues_ = [q1] ∧
      (system.mk ⟨1, [⟨[⟨1, 1⟩, ⟨2, 2⟩], false⟩], 3⟩ [.scan 0] (main_tasks 3)
        [⟨0, 0⟩]).threads_ = [w1] ∧
      [⟨0, 0⟩] ++ w1.held ++ q1.q_ = main_tasks 3) :=
  ⟨(C5_fifo (notification_queue.mk [⟨0, 0⟩] false) [⟨1, 1⟩, ⟨2, 2⟩] rfl
      (system.mk ⟨1, [⟨[⟨1, 1⟩, ⟨2, 2⟩], false⟩], 3⟩ [.scan 0] (main_tasks 3) [⟨0, 0⟩])
      ⟨[.add_task ⟨0, 0⟩ (fun _ => true), .add_task ⟨1, 1⟩ (fun _ => false),
          .worker 0 true, .worker 0 true, .add_task ⟨2, 2⟩ (fun _ => true)],
        by decide⟩).2.1,
    (C5_fifo (notification_queue.mk [⟨0, 0⟩] false) [⟨1, 1⟩, ⟨2, 2⟩] rfl
      (system.mk ⟨1, [⟨[⟨1, 1⟩, ⟨2, 2⟩], false⟩], 3⟩ [.scan 0] (main_tasks 3) [⟨0, 0⟩])
      ⟨[.add_task ⟨0, 0⟩ (fun _ => true), .add_task ⟨1, 1⟩ (fun _ => false),
          .worker 0 true, .worker 0 true, .add_task ⟨2, 2⟩ (fun _ => true)],
        by decide⟩).2.2.1⟩

/-! ### Shutdown -/

/-- On queues that are all done no attempt of a scan succeeds. -/
theorem scan_hit_done (N i : Nat) (locks : Nat → Bool)
    (qs : List notification_queue) (hdone : ∀ q, q ∈ qs → q.done_ = true)
    (shift : Nat) : ¬ scan_hit N i locks qs shift := by
  rintro ⟨q, hq, hpop⟩
  have hd := hdone q (List.mem_iff_getElem?.mpr ⟨_, hq⟩)
  obtain ⟨_, _, _, hnd, _⟩ := q.try_pop_true _ _ hpop
  rw [hd] at hnd
  cases hnd

theorem thread_pool.dtor_done_all (p : thread_pool) :
    ∀ q, q ∈ p.dtor_done.queues_ → q.done_ = true := by
  intro q hq
  simp only [thread_pool.dtor_done, List.mem_map] at hq
  obtain ⟨q0, _, rfl⟩ := hq
  rfl

theorem thread_pool.dtor_done_pending (p : thread_pool) :
    thread_pool.pending p.dtor_done.queues_ = thread_pool.pending p.queues_ := by
  simp [thread_pool.pending, thread_pool.dtor_done, Function.comp_def,
    notification_queue.done]

/-- Once every queue is done, a step of a worker changes no queue: it fails a
`try_pop`, or returns from `pop` with `false` and leaves `run`, or runs the
task it already holds. -/
theorem worker_step_done (p p1 : thread_pool) (i : Nat) (a : Bool) (w w1 : worker)
    (ran : List task) (hdone : ∀ q, q ∈ p.queues_ → q.done_ = true)
    (h : worker_step p i a w = some (w1, p1, ran)) :
    p1 = p ∧ ran ++ w1.held = w.held := by
  rcases worker_step_cases _ _ _ _ _ _ _ h with
    ⟨f, hw, hw1, hp, hran⟩ | ⟨shift, hw, _, hw1, hp, hran⟩ |
    ⟨shift, k, q, f, rest, _, hq, _, hnd, _, _, _⟩ |
    ⟨shift, q, hw, _, _, hw1, hp, hran⟩
  · subst hw hw1 hp hran
    exact ⟨rfl, rfl⟩
  · subst hw hw1 hp hran
    exact ⟨rfl, rfl⟩
  · rw [hdone q (List.mem_iff_getElem?.mpr ⟨_, hq⟩)] at hnd
    cases hnd
  · subst hw hw1 hp hran
    exact ⟨rfl, rfl⟩

/-- After shutdown, worker steps change no queue, and what they execute was
held by a worker before. -/
theorem system.steps_done (ws : List (Nat × Bool)) :
    ∀ s s1 : system, (∀ q, q ∈ s.pool.queues_ → q.done_ = true) →
      s.steps (worker_events ws) = some s1 →
      s1.pool = s.pool ∧ s1.submitted = s.submitted ∧
      ∀ t, s1.executed.count t + ((s1.threads_.map worker.held).flatten).count t
        = s.executed.count t + ((s.threads_.map worker.held).flatten).count t := by
  induction ws with
  | nil =>
    intro s s1 _ h
    simp only [worker_events, List.map_nil, system.steps, Option.some.injEq] at h
    subst h
    exact ⟨rfl, rfl, fun _ => rfl⟩
  | cons e ws ih =>
    intro s s1 hdone h
    simp only [worker_events, List.map_cons, system.steps] at h
    cases hs : s.step (event.worker e.1 e.2) with
    | none => simp [hs] at h
    | some s2 =>
      simp only [hs] at h
      unfold system.step at hs
      cases hw : s.threads_[e.1]? with
      | none => simp [hw] at hs
      | some w =>
        rcases hstep : worker_step s.pool e.1 e.2 w with _ | ⟨w1, p1, ran⟩
        · simp [hw, hstep] at hs
        · simp only [hw, hstep, Option.some.injEq] at hs
          subst hs
          obtain ⟨hp, hran⟩ := worker_step_done _ _ _ _ _ _ _ hdone hstep
          subst hp
          obtain ⟨h1, h2, h3⟩ :=
            ih ⟨s.pool, s.threads_.set e.1 w1, s.submitted, s.executed ++ ran⟩ s1
              hdone h
          refine ⟨h1, h2, fun t => ?_⟩
          have h4 := h3 t
          have h5 := held_set_count s.threads_ e.1 w w1 hw t
          have h6 : ran.count t + w1.held.count t = w.held.count t := by
            rw [← hran, List.count_append]
          simp only [List.count_append] at h4
          omega

/-- C2, as stated, fails: two queues holding three pending tasks.  After the
destructor has called `done()` on both, each worker loop returns in its first
pass having executed nothing, and the three tasks are still in the queues. -/
theorem C2_shutdown_drops_pending_tasks :
    (thread_pool.mk 2 [⟨[⟨0, 0⟩, ⟨2, 2⟩], false⟩, ⟨[⟨1, 1⟩], false⟩] 3).dtor_done.run 0
        (fun _ _ => true) 5 []
      = .returned [] [⟨[⟨0, 0⟩, ⟨2, 2⟩], true⟩, ⟨[⟨1, 1⟩], true⟩] ∧
    (thread_pool.mk 2 [⟨[⟨0, 0⟩, ⟨2, 2⟩], false⟩, ⟨[⟨1, 1⟩], false⟩] 3).dtor_done.run 1
        (fun _ _ => true) 5 []
      = .returned [] [⟨[⟨0, 0⟩, ⟨2, 2⟩], true⟩, ⟨[⟨1, 1⟩], true⟩] := by
  decide

/-- C2, amended: shutdown is abrupt.  For every pool with `1 ≤ N` queues
holding any pending tasks, once `done()` has been called on every queue, no
task is withdrawn any more.  A worker loop that starts a pass returns in that
pass, whatever the locks do, having executed nothing and leaving every queue
as it is; the pending tasks are those from before the shutdown.  Under any
interleaving of worker steps after the shutdown the pool does not change, and
a task that gets executed was held by a worker at the shutdown. -/
theorem C2_shutdown_is_abrupt (p : thread_pool) (hwf : p.wf) (i : Nat)
    (hi : i < p.count_) (locks : Nat → Nat → Bool) (fuel : Nat)
    (s s1 : system) (ws : List (Nat × Bool)) (hp : s.pool = p.dtor_done)
    (hsteps : s.steps (worker_events ws) = some s1) :
    p.dtor_done.run i locks (fuel + 1) [] = .returned [] p.dtor_done.queues_ ∧
    thread_pool.pending p.dtor_done.queues_ = thread_pool.pending p.queues_ ∧
    s1.pool = p.dtor_done ∧
    (∀ t, t ∈ s1.executed →
      t ∈ s.executed ∨ t ∈ (s.threads_.map worker.held).flatten) := by
  have hdone := p.dtor_done_all
  have hwf1 : p.dtor_done.wf := by
    obtain ⟨h1, h2, h3⟩ := hwf
    exact ⟨by simpa [thread_pool.dtor_done] using h1, h2, h3⟩
  have hmiss : ∀ j, j < p.dtor_done.count_ →
      ¬ scan_hit p.dtor_done.count_ i (locks 0) p.dtor_done.queues_ j :=
    fun j _ => scan_hit_done _ _ _ _ hdone j
  obtain ⟨q, hq, hret, _, _⟩ := p.dtor_done.run_iteration_miss hwf1 i hi (locks 0) hmiss
  have hqd : q.done_ = true := hdone q (List.mem_iff_getElem?.mpr ⟨_, hq⟩)
  refine ⟨?_, p.dtor_done_pending, ?_, ?_⟩
  · simp only [thread_pool.run, hret hqd]
  · obtain ⟨h1, _, _⟩ := system.steps_done ws s s1 (hp ▸ hdone) hsteps
    rw [h1, hp]
  · intro t ht
    obtain ⟨_, _, h3⟩ := system.steps_done ws s s1 (hp ▸ hdone) hsteps
    have h4 := h3 t
    have hpos : 0 < s1.executed.count t := List.count_pos_iff.mpr ht
    by_contra hcon
    rw [not_or] at hcon
    have h5 : s.executed.count t = 0 := List.count_eq_zero.mpr hcon.1
    have h6 : ((s.threads_.map worker.held).flatten).count t = 0 :=
      List.count_eq_zero.mpr hcon.2
    omega

/-- Witness for C2: two queues with three pending tasks, worker 1 holding a
fourth task when the destructor calls `done()`; worker 0 scans both queues
and returns, worker 1 runs the task it holds. -/
theorem C2_shutdown_is_abrupt_witness :
    (thread_pool.mk 2 [⟨[⟨0, 0⟩, ⟨2, 2⟩], false⟩, ⟨[⟨1, 1⟩], false⟩] 4).dtor_done.run 0
        (fun _ _ => true) (0 + 1) []
      = .returned [] (thread_pool.mk 2 [⟨[⟨0, 0⟩, ⟨2, 2⟩], false⟩, ⟨[⟨1, 1⟩], false⟩] 4).dtor_done.queues_ ∧
    (system.mk ⟨2, [⟨[⟨0, 0⟩, ⟨2, 2⟩], true⟩, ⟨[⟨1, 1⟩], true⟩], 4⟩
        [.exited, .scan 0] (main_tasks 4) [⟨3, 3⟩]).pool
      = (thread_pool.mk 2 [⟨[⟨0, 0⟩, ⟨2, 2⟩], false⟩, ⟨[⟨1, 1⟩], false⟩] 4).dtor_done :=
  have h := C2_shutdown_is_abrupt
    (thread_pool.mk 2 [⟨[⟨0, 0⟩, ⟨2, 2⟩], false⟩, ⟨[⟨1, 1⟩], false⟩] 4)
    ⟨by decide, by decide, by decide⟩ 0 (by decide) (fun _ _ => true) 0
    (system.mk ⟨2, [⟨[⟨0, 0⟩, ⟨2, 2⟩], true⟩, ⟨[⟨1, 1⟩], true⟩], 4⟩
      [.scan 0, .holding ⟨3, 3⟩] (main_tasks 4) [])
    (system.mk ⟨2, [⟨[⟨0, 0⟩, ⟨2, 2⟩], true⟩, ⟨[⟨1, 1⟩], true⟩], 4⟩
      [.exited, .scan 0] (main_tasks 4) [⟨3, 3⟩])
    [(0, true), (1, true), (0, true), (0, false)] (by decide) (by decide)
  ⟨h.1, h.2.2.1⟩

/-! ### Progress: every submitted task can be run -/

/-- Membership after `set`. -/
theorem mem_set_cases {α : Type} (l : List α) (k : Nat) (a b : α)
    (h : b ∈ l.set k a) : b ∈ l ∨ b = a :=
  List.mem_or_eq_of_mem_set h

/-- A running pool stays running under every step. -/
theorem system.step_running (n : Nat) (s s1 : system) (e : event)
    (h : s.step e = some s1) (hrun : s.running n) : s1.running n := by
  obtain ⟨hc, hlen, hth, hnd, hne⟩ := hrun
  cases e with
  | add_task f locks =>
    unfold system.step at h
    rcases hadd : s.pool.add_task locks f with _ | ⟨r, p1⟩
    · simp [hadd] at h
    · simp only [hadd, Option.some.injEq] at h
      subst h
      obtain ⟨_, k, q, hq, hp⟩ := thread_pool.add_task_shape _ _ _ _ _ hadd
      subst hp
      refine ⟨hc, by simpa using hlen, hth, ?_, hne⟩
      intro q1 hq1
      rcases mem_set_cases _ _ _ _ hq1 with hmem | heq
      · exact hnd q1 hmem
      · rw [heq]
        exact hnd q (List.mem_iff_getElem?.mpr ⟨_, hq⟩)
  | worker i a =>
    unfold system.step at h
    cases hw : s.threads_[i]? with
    | none => simp [hw] at h
    | some w =>
      rcases hstep : worker_step s.pool i a w with _ | ⟨w1, p1, ran⟩
      · simp [hw, hstep] at h
      · simp only [hw, hstep, Option.some.injEq] at h
        subst h
        have hset : ∀ w2, w2 ≠ worker.exited →
            ∀ w3, w3 ∈ s.threads_.set i w2 → w3 ≠ worker.exited := by
          intro w2 hw2 w3 hw3
          rcases mem_set_cases _ _ _ _ hw3 with hmem | heq
          · exact hne w3 hmem
          · rw [heq]
            exact hw2
        rcases worker_step_cases _ _ _ _ _ _ _ hstep with
          ⟨f, _, hw1, hp, _⟩ | ⟨shift, _, _, hw1, hp, _⟩ |
          ⟨shift, k, q, f, rest, _, hq, _, _, hw1, hp, _⟩ |
          ⟨shift, q, _, hq, hd, _, _, _⟩
        · subst hw1 hp
          exact ⟨hc, hlen, by simpa using hth, hnd, hset _ (by simp)⟩
        · subst hw1 hp
          exact ⟨hc, hlen, by simpa using hth, hnd, hset _ (by simp)⟩
        · subst hw1 hp
          refine ⟨hc, by simpa using hlen, by simpa using hth, ?_, hset _ (by simp)⟩
          intro q1 hq1
          rcases mem_set_cases _ _ _ _ hq1 with hmem | heq
          · exact hnd q1 hmem
          · rw [heq]
        · rw [hnd q (List.mem_iff_getElem?.mpr ⟨_, hq⟩)] at hd
          cases hd

theorem system.steps_running (n : Nat) (es : List event) :
    ∀ s s1 : system, s.steps es = some s1 → s.running n → s1.running n := by
  induction es with
  | nil =>
    intro s s1 h hrun
    simp only [system.steps, Option.some.injEq] at h
    exact h ▸ hrun
  | cons e es ih =>
    intro s s1 h hrun
    unfold system.steps at h
    cases hs : s.step e with
    | none => simp [hs] at h
    | some s2 =>
      simp only [hs] at h
      exact ih s2 s1 h (system.step_running n s s2 e hs hrun)

theorem system.init_running (h : Nat) : (system.init h).running h := by
  refine ⟨rfl, by simp [system.init, thread_pool.ctor],
    by simp [system.init], ?_, ?_⟩
  · intro q hq
    simp only [system.init, thread_pool.ctor, List.mem_replicate] at hq
    rw [hq.2]
  · intro w hw
    simp only [system.init, List.mem_replicate] at hw
    rw [hw.2]
    simp

theorem sum_map_set {β : Type} (g : β → Nat) (l : List β) (k : Nat) (b b1 : β)
    (h : l[k]? = some b) :
    ((l.set k b1).map g).sum + g b = (l.map g).sum + g b1 := by
  induction l generalizing k with
  | nil => simp at h
  | cons a l ih =>
    cases k with
    | zero =>
      simp only [List.getElem?_cons_zero, Option.some.injEq] at h
      subst h
      simp only [List.set_cons_zero, List.map_cons, List.sum_cons]
      omega
    | succ k =>
      simp only [List.getElem?_cons_succ] at h
      have := ih k h
      simp only [List.set_cons_succ, List.map_cons, List.sum_cons]
      omega

theorem thread_pool.pending_set_length (qs : List notification_queue) (k : Nat)
    (q q1 : notification_queue) (h : qs[k]? = some q) :
    (thread_pool.pending (qs.set k q1)).length + q.q_.length
      = (thread_pool.pending qs).length + q1.q_.length := by
  obtain ⟨r, h1, h2⟩ := flatten_map_set notification_queue.q_ qs k q q1 h
  have e1 := h1.length_eq
  have e2 := h2.length_eq
  simp only [List.length_append] at e1 e2
  unfold thread_pool.pending
  omega

/-- In a running pool a worker that is not waiting in `pop` on an empty queue
can take a step (with the lock free), and the step uses up work. -/
theorem worker_step_progress (p : thread_pool) (j n : Nat) (w : worker)
    (hc : p.count_ = n) (hlen : p.queues_.length = n) (hn : 0 < n)
    (hnd : ∀ q, q ∈ p.queues_ → q.done_ = false) (hw : w ≠ worker.exited)
    (hj : ∀ shift, w = .scan shift → ¬ shift < n →
      ∃ q f rest, p.queues_[j]? = some q ∧ q.q_ = f :: rest) :
    ∃ w1 p1 ran, worker_step p j true w = some (w1, p1, ran) ∧
      (n + 2) * (thread_pool.pending p1.queues_).length + w1.weight n
        < (n + 2) * (thread_pool.pending p.queues_).length + w.weight n := by
  obtain ⟨c, qs, idx⟩ := p
  have hc1 : n = c := hc.symm
  subst hc1
  simp only at hlen hnd hj ⊢
  have hwithdraw : ∀ k q f rest, qs[k]? = some q → q.q_ = f :: rest →
      ∀ shift, (n + 2) * (thread_pool.pending
          (qs.set k { q_ := rest, done_ := false })).length + (n + 1)
        < (n + 2) * (thread_pool.pending qs).length + (n - shift) := by
    intro k q f rest hq hl shift
    have := thread_pool.pending_set_length qs k q
      { q_ := rest, done_ := false } hq
    rw [hl] at this
    simp only [List.length_cons] at this
    have e : (thread_pool.pending qs).length
        = (thread_pool.pending
            (qs.set k { q_ := rest, done_ := false })).length + 1 := by
      omega
    rw [e, Nat.mul_succ]
    omega
  cases w with
  | exited => exact absurd rfl hw
  | holding f =>
    exact ⟨.scan 0, ⟨n, qs, idx⟩, [f], rfl, by simp [worker.weight]⟩
  | scan shift =>
    by_cases hlt : shift < n
    · obtain ⟨q, hq⟩ := getElem?_mod qs n (size_add j shift) hn hlen
      have hd := hnd q (List.mem_iff_getElem?.mpr ⟨_, hq⟩)
      cases hl : q.q_ with
      | nil =>
        refine ⟨.scan (shift + 1), ⟨n, qs, idx⟩, [], ?_, ?_⟩
        · simp [worker_step, hlt, size_rem_pos _ _ hn, hq,
            notification_queue.try_pop, hl, set_getElem?_same qs _ q hq]
        · simp only [worker.weight]
          omega
      | cons f rest =>
        refine ⟨.holding f,
          ⟨n, qs.set (size_add j shift % n) ⟨rest, false⟩,
            idx⟩, [], ?_, ?_⟩
        · simp [worker_step, hlt, size_rem_pos _ _ hn, hq,
            notification_queue.try_pop, hl, hd]
        · simp only [worker.weight]
          exact hwithdraw _ q f rest hq hl shift
    · obtain ⟨q, f, rest, hq, hl⟩ := hj shift rfl hlt
      have hd := hnd q (List.mem_iff_getElem?.mpr ⟨_, hq⟩)
      refine ⟨.holding f, ⟨n, qs.set j ⟨rest, false⟩, idx⟩, [],
        ?_, ?_⟩
      · simp [worker_step, hlt, hq, notification_queue.pop,
          notification_queue.ready, hl, hd]
      · simp only [worker.weight]
        exact hwithdraw _ q f rest hq hl shift

/-- In a running pool with work left some worker can take a step that uses up
work. -/
theorem system.progress_step (n : Nat) (hn : 0 < n) (s : system)
    (hrun : s.running n)
    (hwork : thread_pool.pending s.pool.queues_ ≠ [] ∨
      (s.threads_.map worker.held).flatten ≠ []) :
    ∃ i s1, s.step (.worker i true) = some s1 ∧ s1.submitted = s.submitted ∧
      s1.work_left < s.work_left := by
  obtain ⟨hc, hlen, hth, hnd, hne⟩ := hrun
  -- choose the worker
  have hchoose : ∃ (j : Nat) (w : worker), s.threads_[j]? = some w ∧
      ∀ shift, w = .scan shift → ¬ shift < n →
        ∃ q f rest, s.pool.queues_[j]? = some q ∧ q.q_ = f :: rest := by
    by_cases hheld : (s.threads_.map worker.held).flatten = []
    · have hpend := hwork.resolve_right (not_not.mpr hheld)
      obtain ⟨t, ht⟩ := List.exists_mem_of_ne_nil _ hpend
      simp only [thread_pool.pending, List.mem_flatten, List.mem_map] at ht
      obtain ⟨l, ⟨q, hq, rfl⟩, htl⟩ := ht
      obtain ⟨j, hj⟩ := List.mem_iff_getElem?.mp hq
      have hjlt : j < s.threads_.length := by
        rw [hth, ← hlen]
        exact (List.getElem?_eq_some.mp hj).1
      refine ⟨j, s.threads_[j], List.getElem?_eq_getElem hjlt, ?_⟩
      intro shift _ _
      cases hl : q.q_ with
      | nil => rw [hl] at htl; cases htl
      | cons f rest => exact ⟨q, f, rest, hj, hl⟩
    · obtain ⟨t, ht⟩ := List.exists_mem_of_ne_nil _ hheld
      simp only [List.mem_flatten, List.mem_map] at ht
      obtain ⟨l, ⟨w, hw, rfl⟩, htl⟩ := ht
      obtain ⟨j, hj⟩ := List.mem_iff_getElem?.mp hw
      refine ⟨j, w, hj, ?_⟩
      intro shift hws _
      rw [hws] at htl
      cases htl
  obtain ⟨j, w, hw, hj⟩ := hchoose
  obtain ⟨w1, p1, ran, hstep, hless⟩ :=
    worker_step_progress s.pool j n w hc hlen hn hnd
      (hne w (List.mem_iff_getElem?.mpr ⟨_, hw⟩)) hj
  have hc1 : p1.count_ = s.pool.count_ := by
    rcases worker_step_cases _ _ _ _ _ _ _ hstep with
      ⟨_, _, _, hp, _⟩ | ⟨_, _, _, _, hp, _⟩ |
      ⟨_, _, _, _, _, _, _, _, _, _, hp, _⟩ | ⟨_, _, _, _, _, _, hp, _⟩ <;>
    rw [hp]
  refine ⟨j, ⟨p1, s.threads_.set j w1, s.submitted, s.executed ++ ran⟩,
    by simp only [system.step, hw, hstep], rfl, ?_⟩
  have hsum := sum_map_set (worker.weight n) s.threads_ j w w1 hw
  simp only [system.work_left, hc1, hc]
  omega

theorem system.steps_append (es1 es2 : List event) :
    ∀ s s1 s2 : system, s.steps es1 = some s1 → s1.steps es2 = some s2 →
      s.steps (es1 ++ es2) = some s2 := by
  induction es1 with
  | nil =>
    intro s s1 s2 h1 h2
    simp only [system.steps, Option.some.injEq] at h1
    subst h1
    exact h2
  | cons e es ih =>
    intro s s1 s2 h1 h2
    simp only [List.cons_append, system.steps] at h1 ⊢
    cases hs : s.step e with
    | none => simp [hs] at h1
    | some s3 =>
      simp only [hs] at h1 ⊢
      exact ih s3 s1 s2 h1 h2

/-- From a running pool with at least one worker, worker steps can empty the
queues and the hands of the workers. -/
theorem system.drain (n : Nat) (hn : 0 < n) :
    ∀ m (s : system), s.work_left ≤ m → s.running n →
      ∃ ws s1, s.steps (worker_events ws) = some s1 ∧ s1.submitted = s.submitted ∧
        s1.running n ∧ thread_pool.pending s1.pool.queues_ = [] ∧
        (s1.threads_.map worker.held).flatten = [] := by
  intro m
  induction m with
  | zero =>
    intro s hle hrun
    by_cases hdone : thread_pool.pending s.pool.queues_ = [] ∧
        (s.threads_.map worker.held).flatten = []
    · exact ⟨[], s, rfl, rfl, hrun, hdone.1, hdone.2⟩
    · obtain ⟨i, s1, _, _, hlt⟩ :=
        system.progress_step n hn s hrun (not_and_or.mp hdone)
      omega
  | succ m ih =>
    intro s hle hrun
    by_cases hdone : thread_pool.pending s.pool.queues_ = [] ∧
        (s.threads_.map worker.held).flatten = []
    · exact ⟨[], s, rfl, rfl, hrun, hdone.1, hdone.2⟩
    · obtain ⟨i, s1, hstep, hsub, hlt⟩ :=
        system.progress_step n hn s hrun (not_and_or.mp hdone)
      obtain ⟨ws, s2, hsteps, hsub2, hrun2, hp, hh⟩ :=
        ih s1 (by omega) (system.step_running n s s1 _ hstep hrun)
      refine ⟨(i, true) :: ws, s2, ?_, hsub2.trans hsub, hrun2, hp, hh⟩
      simp only [worker_events, List.map_cons, system.steps, hstep]
      exact hsteps

/-- From every reachable state of a pool with at least one worker, worker
steps can run every submitted task. -/
theorem system.reachable_drain (h : Nat) (s : system) (hpos : 1 ≤ h)
    (hs : (system.init h).reachable s) :
    ∃ ws s1, s.steps (worker_events ws) = some s1 ∧
      s1.submitted = s.submitted ∧ s1.executed.Perm s.submitted := by
  obtain ⟨es, hes⟩ := hs
  have hrun := system.steps_running h es _ _ hes (system.init_running h)
  obtain ⟨ws, s1, hsteps, hsub, _, hp, hh⟩ :=
    system.drain h hpos s.work_left s (Nat.le_refl _) hrun
  refine ⟨ws, s1, hsteps, hsub, ?_⟩
  have hperm := system.reachable_places h s1
    ⟨es ++ worker_events ws, system.steps_append es _ _ _ _ hes hsteps⟩
  simp only [system.places, hp, hh, List.nil_append] at hperm
  rw [← hsub]
  exact hperm

/-! ### Exactly-once execution -/

/-- C3: in every state that an interleaving of `add_task` calls and worker
steps reaches from a freshly constructed pool (no shutdown), the places
(queues, workers, log of executed tasks) together hold exactly the submitted
tasks.  If the submitted tasks are distinct, no task is executed twice and
each submitted task is in exactly one place.  In the scenario of `main`
(`n` tasks, task `i` returning `i` through handle `i`) no handle ever yields a
value other than its own index, and once every handle has a value, handle `i`
yields `i` and the returned values are `0, ..., n-1`, each exactly once.
With at least one worker that point can always be reached: from every such
state some sequence of worker steps runs every submitted task. -/
theorem C3_exactly_once (h : Nat) (s : system)
    (hs : (system.init h).reachable s) :
    s.places.Perm s.submitted ∧
    (s.submitted.Nodup →
      s.executed.Nodup ∧
      ∀ t, t ∈ s.submitted →
        (thread_pool.pending s.pool.queues_).count t
          + ((s.threads_.map worker.held).flatten).count t
          + s.executed.count t = 1) ∧
    (∀ n, s.submitted = main_tasks n →
      (∀ i, s.result i = none ∨ s.result i = some i) ∧
      ((∀ i, i < n → s.result i ≠ none) →
        (∀ i, i < n → s.result i = some i) ∧
        (s.executed.map task.value).Perm (List.range n))) ∧
    (1 ≤ h → ∃ ws s1, s.steps (worker_events ws) = some s1 ∧
      s1.submitted = s.submitted ∧ s1.executed.Perm s.submitted) := by
  have hperm := system.reachable_places h s hs
  have hsub : s.executed.Sublist s.places := by
    unfold system.places
    exact List.sublist_append_right _ _
  refine ⟨hperm, ?_, ?_, fun hpos => system.reachable_drain h s hpos hs⟩
  · intro hnd
    have hpl : s.places.Nodup := hperm.nodup_iff.mpr hnd
    refine ⟨hsub.nodup hpl, ?_⟩
    intro t ht
    have h1 : s.places.count t = 1 :=
      List.count_eq_one_of_mem hpl (hperm.mem_iff.mpr ht)
    simp only [system.places, List.count_append] at h1
    exact h1
  · intro n hn
    have hnd : s.submitted.Nodup := hn ▸ nodup_main_tasks n
    have hmem : ∀ t, t ∈ s.executed → t.value = t.handle ∧ t.handle < n := by
      intro t ht
      have ht1 : t ∈ s.submitted := hperm.mem_iff.mp (hsub.subset ht)
      rw [hn, main_tasks, List.mem_map] at ht1
      obtain ⟨j, hj, rfl⟩ := ht1
      exact ⟨rfl, List.mem_range.mp hj⟩
    have hres : ∀ i, s.result i = none ∨ s.result i = some i := by
      intro i
      unfold system.result
      cases hf : s.executed.find? (fun t => t.handle == i) with
      | none => exact Or.inl rfl
      | some t =>
        right
        have h1 := List.find?_some hf
        have h2 := (hmem t (List.mem_of_find?_eq_some hf)).1
        simp only [beq_iff_eq] at h1
        simp [h2, h1]
    refine ⟨hres, ?_⟩
    intro hall
    refine ⟨fun i hi => (hres i).resolve_left (hall i hi), ?_⟩
    have hsubset : s.submitted ⊆ s.executed := by
      intro t ht
      rw [hn, main_tasks, List.mem_map] at ht
      obtain ⟨i, hi, rfl⟩ := ht
      have hne := hall i (List.mem_range.mp hi)
      unfold system.result at hne
      cases hf : s.executed.find? (fun t => t.handle == i) with
      | none => simp [hf] at hne
      | some t =>
        have h1 := List.find?_some hf
        have h2 := List.mem_of_find?_eq_some hf
        have h3 := (hmem t h2).1
        simp only [beq_iff_eq] at h1
        have : t = ⟨i, i⟩ := by
          cases t
          simp_all
        exact this ▸ h2
    have hpe : s.executed.Perm s.submitted :=
      List.Subperm.antisymm (hsub.subperm.trans hperm.subperm)
        (List.subperm_of_subset hnd hsubset)
    have := hpe.map task.value
    rw [hn, main_tasks, List.map_map] at this
    simpa [Function.comp_def] using this

set_option maxRecDepth 100000 in
/-- The interleaving `main_interleaving 4 100` runs, and ends with all queues
empty and every task executed. -/
theorem main_interleaving_runs :
    (system.init 4).steps (main_interleaving 4 100)
      = some
          { pool := ⟨4, List.replicate 4 ⟨[], false⟩, 100⟩
            threads_ := List.replicate 4 (.scan 0)
            submitted := main_tasks 100
            executed := main_tasks 100 } := by
  decide

set_option maxRecDepth 100000 in
/-- Witness for C3, the scenario of `main` with `N = 4` and `n = 100`: the
state that `main_interleaving 4 100` reaches.  Every handle `i < 100` yields
`i`, and the returned values are `0, ..., 99`, each once. -/
theorem C3_exactly_once_witness :
    (system.init 4).reachable
      { pool := ⟨4, List.replicate 4 ⟨[], false⟩, 100⟩
        threads_ := List.replicate 4 (.scan 0)
        submitted := main_tasks 100
        executed := main_tasks 100 } ∧
    (∀ i, i < 100 →
      (system.mk ⟨4, List.replicate 4 ⟨[], false⟩, 100⟩ (List.replicate 4 (.scan 0))
        (main_tasks 100) (main_tasks 100)).result i = some i) ∧
    ((system.mk ⟨4, List.replicate 4 ⟨[], false⟩, 100⟩ (List.replicate 4 (.scan 0))
        (main_tasks 100) (main_tasks 100)).executed.map task.value).Perm
      (List.range 100) :=
  ⟨⟨main_interleaving 4 100, main_interleaving_runs⟩,
    ((C3_exactly_once 4 _ ⟨main_interleaving 4 100, main_interleaving_runs⟩).2.2.1
      100 rfl).2 (by decide)⟩

end work_stealing_pool
